import Mathlib

/-!
Verification of the RAG scoring metric (`working_rag_metric.py`).

Shallow embedding conventions:
* Text is modelled as `List Char` (ASCII-faithful: the character classes
  `pyIsSpace`, `isWordChar` model Python's `\s` and `\w` on the ASCII range).
* Python floats are modelled as exact rationals `ℚ`; the float literals
  `0.5`, `0.7`, `0.8` of the source are exactly representable, and the float
  divisions of the source round to nearest, which agrees with the exact
  rational comparisons for all realistically sized inputs.
* Fallible stringification (`str(obj)` raising) is modelled by the
  `Value.raising` constructor and the `Except` monad; the top-level
  `try/except` of `WorkingRAGMetric.__call__` becomes a `match` on the
  `Except` result.
* `difflib.SequenceMatcher` (constructed with `isjunk=None`, so the junk set
  is empty and the two junk-extension loops of `find_longest_match` are
  vacuous) is embedded including its `autojunk` popularity heuristic.
-/

/-- Python whitespace (the ASCII part of `\s` / `str.strip()`):
space, tab, newline, carriage return, vertical tab, form feed. -/
def pyIsSpace (c : Char) : Bool :=
  c == ' ' || c == '\t' || c == '\n' || c == '\r' ||
  c == Char.ofNat 11 || c == Char.ofNat 12

/-- Python word character (the ASCII part of `\w`): letters, digits, underscore. -/
def isWordChar (c : Char) : Bool :=
  c.isAlphanum || c == '_'

/-- The punctuation characters removed by `_normalize_text`:
`re.sub(r'[.,!?;:"\']', '', text)`. -/
def isPunctChar (c : Char) : Bool :=
  c == '.' || c == ',' || c == '!' || c == '?' || c == ';' || c == ':' ||
  c == '"' || c == Char.ofNat 39

/-- Remove trailing whitespace (the right half of Python `str.strip()`). -/
def dropTrail (l : List Char) : List Char :=
  (l.reverse.dropWhile pyIsSpace).reverse

/-- Python `str.strip()`. -/
def pyStrip (l : List Char) : List Char :=
  dropTrail (l.dropWhile pyIsSpace)

/-- `re.sub(r'\s+', ' ', ·)`: collapse every whitespace run to a single
space. Structural recursion on a fuel argument (always sufficient at
`l.length`, see the `_irrel` lemmas below) so the kernel can evaluate it. -/
def collapseWsF : Nat → List Char → List Char
  | _, [] => []
  | 0, l => l
  | fuel + 1, c :: cs =>
    if pyIsSpace c then ' ' :: collapseWsF fuel (cs.dropWhile pyIsSpace)
    else c :: collapseWsF fuel cs

/-- `re.sub(r'\s+', ' ', ·)`. -/
def collapseWs (l : List Char) : List Char := collapseWsF l.length l

/-- Case-insensitive test for the article words `the`, `a`, `an`. -/
def isArticle (run : List Char) : Bool :=
  let low := run.map Char.toLower
  low == ['t', 'h', 'e'] || low == ['a'] || low == ['a', 'n']

/-- `re.sub(r'\b(the|a|an)\b', '', ·, flags=re.IGNORECASE)`.
Because `\b...\b` with a purely-word-character alternative matches exactly the
maximal word-character runs equal (case-insensitively) to an article, the
substitution deletes those maximal runs and keeps everything else. -/
def removeArticlesF : Nat → List Char → List Char
  | _, [] => []
  | 0, l => l
  | fuel + 1, c :: cs =>
    if isWordChar c then
      (if isArticle ((c :: cs).takeWhile isWordChar) then []
       else (c :: cs).takeWhile isWordChar) ++
        removeArticlesF fuel ((c :: cs).dropWhile isWordChar)
    else c :: removeArticlesF fuel cs

/-- `re.sub(r'\b(the|a|an)\b', '', ·, flags=re.IGNORECASE)`. -/
def removeArticles (l : List Char) : List Char := removeArticlesF l.length l

/-- `WorkingRAGMetric._normalize_text`. -/
def normalizeText (t : List Char) : List Char :=
  let t1 := collapseWs (pyStrip t)
  let t2 := t1.filter (fun c => !isPunctChar c)
  let t3 := removeArticles t2
  pyStrip t3

/-- Python `str.lower()` (ASCII). -/
def lowerTxt (l : List Char) : List Char :=
  l.map Char.toLower

/-- Python `needle in hay` substring test for strings. -/
def isSub (needle : List Char) : List Char → Bool
  | [] => needle.isEmpty
  | c :: t => needle.isPrefixOf (c :: t) || isSub needle t

/-- Python `str.split()` with no argument: split on whitespace runs,
producing no empty words. -/
def pySplitF : Nat → List Char → List (List Char)
  | _, [] => []
  | 0, _ => []
  | fuel + 1, c :: cs =>
    if pyIsSpace c then pySplitF fuel cs
    else
      (c :: cs).takeWhile (fun x => !pyIsSpace x) ::
        pySplitF fuel ((c :: cs).dropWhile (fun x => !pyIsSpace x))

/-- Python `str.split()` with no argument. -/
def pySplit (l : List Char) : List (List Char) := pySplitF l.length l

/-- Decidable check used to state trimmedness: the first and last characters
(if any) are not whitespace. -/
def trimmedB (l : List Char) : Bool :=
  (match l.head? with
   | some c => !pyIsSpace c
   | none => true) &&
  (match l.getLast? with
   | some c => !pyIsSpace c
   | none => true)

/-- Decidable check: some maximal word-character run is an article word
(a standalone whole-word occurrence of `the`/`a`/`an`, any case). -/
def hasArticleRunF : Nat → List Char → Bool
  | _, [] => false
  | 0, _ => false
  | fuel + 1, c :: cs =>
    if isWordChar c then
      isArticle ((c :: cs).takeWhile isWordChar) ||
        hasArticleRunF fuel ((c :: cs).dropWhile isWordChar)
    else hasArticleRunF fuel cs

/-- Decidable check: some maximal word-character run is an article word. -/
def hasArticleRun (l : List Char) : Bool := hasArticleRunF l.length l

/-- Decidable check: two consecutive whitespace characters occur
(a whitespace run of length greater than one). -/
def hasWsWsPair : List Char → Bool
  | a :: b :: t => (pyIsSpace a && pyIsSpace b) || hasWsWsPair (b :: t)
  | _ => false

/-! ## Input values and the extractor (`_extract_text`) -/

/-- Python input values as seen by the metric: strings, numbers,
dicts with string keys, lists, and objects whose `str()` raises
(the fault source contemplated by the top-level `try/except`). -/
inductive Value where
  | str (s : List Char)
  | num (n : Int)
  | dict (fields : List (String × Value))
  | list (items : List Value)
  | raising (msg : String)

/-- The single-quote character, `'`. -/
def quoteChar : Char := Char.ofNat 39

/-- The left curly brace character. -/
def lcurly : Char := Char.ofNat 123

/-- The right curly brace character. -/
def rcurly : Char := Char.ofNat 125

mutual

/-- Python `repr`: strings are quoted (single-quote convention; escaping of
embedded quotes is not modelled), dicts and lists render their entries
recursively, and a raising object propagates its exception. -/
def pyReprE : Value → Except String (List Char)
  | .str s => .ok (quoteChar :: (s ++ [quoteChar]))
  | .num n => .ok (toString n).toList
  | .dict fields =>
    match pyReprFields fields with
    | .error e => .error e
    | .ok entries => .ok (lcurly :: (List.intercalate (", ".toList) entries ++ [rcurly]))
  | .list items =>
    match pyReprItems items with
    | .error e => .error e
    | .ok entries => .ok ('[' :: (List.intercalate (", ".toList) entries ++ [']']))
  | .raising m => .error m

/-- `repr` of the key-value entries of a dict, in order. -/
def pyReprFields : List (String × Value) → Except String (List (List Char))
  | [] => .ok []
  | (k, v) :: rest =>
    match pyReprE v with
    | .error e => .error e
    | .ok vs =>
      match pyReprFields rest with
      | .error e => .error e
      | .ok tail =>
        .ok ((quoteChar :: (k.toList ++ [quoteChar]) ++ ':' :: ' ' :: vs) :: tail)

/-- `repr` of the items of a list, in order. -/
def pyReprItems : List Value → Except String (List (List Char))
  | [] => .ok []
  | v :: rest =>
    match pyReprE v with
    | .error e => .error e
    | .ok vs =>
      match pyReprItems rest with
      | .error e => .error e
      | .ok tail => .ok (vs :: tail)

end

/-- Python `str()`: the string itself for strings, `repr` otherwise. -/
def pyStrE : Value → Except String (List Char)
  | .str s => .ok s
  | v => pyReprE v

mutual

/-- `true` when no component of the value raises on stringification. -/
def stringifiable : Value → Bool
  | .str _ => true
  | .num _ => true
  | .dict fields => stringifiableFields fields
  | .list items => stringifiableItems items
  | .raising _ => false

/-- All dict entries are stringifiable. -/
def stringifiableFields : List (String × Value) → Bool
  | [] => true
  | (_, v) :: rest => stringifiable v && stringifiableFields rest

/-- All list items are stringifiable. -/
def stringifiableItems : List Value → Bool
  | [] => true
  | v :: rest => stringifiable v && stringifiableItems rest

end

/-- The field loop of `_extract_text`: for the first field name present in
the dict, a string value is returned trimmed and a dict or list value is
returned as its `str()` representation; any other value falls through to
the next field name. `none` means no field produced a result. -/
def fieldResult (fields : List (String × Value)) :
    List String → Option (Except String (List Char))
  | [] => none
  | f :: fs =>
    match fields.lookup f with
    | some (.str s) => some (.ok (pyStrip s))
    | some (.dict d) => some (pyReprE (.dict d))
    | some (.list l) => some (pyReprE (.list l))
    | _ => fieldResult fields fs

/-- `WorkingRAGMetric._extract_text`, configured with output field `of`. -/
def extractText (of : String) : Value → Except String (List Char)
  | .str s => .ok (pyStrip s)
  | .dict fields =>
    match fieldResult fields [of, "answer", "response", "text"] with
    | some r => r
    | none =>
      match fields.lookup "outputs" with
      | some (.dict od) =>
        match od.lookup "answer" with
        | some v =>
          match pyStrE v with
          | .error e => .error e
          | .ok s => .ok (pyStrip s)
        | none =>
          match pyStrE (.dict fields) with
          | .error e => .error e
          | .ok s => .ok (pyStrip s)
      | _ =>
        match pyStrE (.dict fields) with
        | .error e => .error e
        | .ok s => .ok (pyStrip s)
  | v =>
    match pyStrE v with
    | .error e => .error e
    | .ok s => .ok (pyStrip s)

/-- Proof-layer generalization of the mapping branch of `extractText`: the
same field loop and fallbacks, but over an arbitrary remaining list of
candidate field names. `extractText of (.dict fields)` is definitionally
`extractDictFrom fields [of, "answer", "response", "text"]`. -/
def extractDictFrom (fields : List (String × Value))
    (cands : List String) : Except String (List Char) :=
  match fieldResult fields cands with
  | some r => r
  | none =>
    match fields.lookup "outputs" with
    | some (.dict od) =>
      match od.lookup "answer" with
      | some v =>
        match pyStrE v with
        | .error e => .error e
        | .ok s => .ok (pyStrip s)
      | none =>
        match pyStrE (.dict fields) with
        | .error e => .error e
        | .ok s => .ok (pyStrip s)
    | _ =>
      match pyStrE (.dict fields) with
      | .error e => .error e
      | .ok s => .ok (pyStrip s)

/-! ## `difflib.SequenceMatcher` (as called: `SequenceMatcher(None, a, b)`) -/

/-- Character read with a dummy out-of-range default; every index the
algorithm dereferences is shown in range by the validity lemmas. -/
def getC (s : List Char) (i : Nat) : Char := s.getD i (Char.ofNat 0)

/-- Ascending indices (counting from `k`) of the occurrences of `c`. -/
def indicesOfFrom (c : Char) : List Char → Nat → List Nat
  | [], _ => []
  | x :: xs, k =>
    if x == c then k :: indicesOfFrom c xs (k + 1) else indicesOfFrom c xs (k + 1)

/-- `b2j[c]` before the autojunk purge: all positions of `c` in `b`. -/
def indicesOf (c : Char) (b : List Char) : List Nat := indicesOfFrom c b 0

/-- The autojunk popularity test of `SequenceMatcher.__chain_b`: with
`autojunk=True` and `len(b) >= 200`, elements occurring more than
`len(b) // 100 + 1` times are purged from `b2j`. -/
def isPopular (b : List Char) (c : Char) : Bool :=
  decide (200 ≤ b.length) && decide (b.length / 100 + 1 < (indicesOf c b).length)

/-- `self.b2j` after `__chain_b` (`isjunk = None`, so no junk purge). -/
def b2j (b : List Char) (c : Char) : List Nat :=
  if isPopular b c then [] else indicesOf c b

/-- The `j` values visited by the inner loop of `find_longest_match` at row
`i`: `b2j[a[i]]` restricted to `[blo, bhi)` (the `continue`/`break` on the
ascending index list). -/
def validJs (a b : List Char) (blo bhi i : Nat) : List Nat :=
  (b2j b (getC a i)).filter (fun j => decide (blo ≤ j) && decide (j < bhi))

/-- One row of the `j2len` dictionary:
`newj2len[j] = j2len.get(j - 1, 0) + 1` for visited `j`, absent (0) otherwise. -/
def stepJ2 (js : List Nat) (j2len : Nat → Nat) : Nat → Nat :=
  fun j => if js.contains j then (if j = 0 then 0 else j2len (j - 1)) + 1 else 0

/-- The best-update inner loop of `find_longest_match`: best becomes
`(i - k + 1, j - k + 1, k)` whenever `k > bestsize`. -/
def innerBest (i : Nat) (nj : Nat → Nat) (js : List Nat)
    (best : (Nat × Nat) × Nat) : (Nat × Nat) × Nat :=
  js.foldl (fun acc j =>
    if nj j > acc.2 then ((i + 1 - nj j, j + 1 - nj j), nj j) else acc) best

/-- The `for i in range(alo, ahi)` loop of `find_longest_match`;
`fuel = ahi - i` iterations remain. -/
def dpLoop (a b : List Char) (blo bhi : Nat) :
    Nat → Nat → (Nat → Nat) → (Nat × Nat) × Nat → (Nat × Nat) × Nat
  | _, 0, _, best => best
  | i, fuel + 1, j2len, best =>
    dpLoop a b blo bhi (i + 1) fuel (stepJ2 (validJs a b blo bhi i) j2len)
      (innerBest i (stepJ2 (validJs a b blo bhi i) j2len) (validJs a b blo bhi i) best)

/-- The backward extension loop of `find_longest_match` (`bjunk` is empty
since `isjunk` is `None`, so `not isbjunk(...)` always holds and the junk
extension loop never fires). -/
def extendBack (a b : List Char) (alo blo : Nat) :
    Nat → (Nat × Nat) × Nat → (Nat × Nat) × Nat
  | 0, best => best
  | fuel + 1, ((bi, bj), k) =>
    if alo < bi ∧ blo < bj ∧ getC a (bi - 1) = getC b (bj - 1) then
      extendBack a b alo blo fuel ((bi - 1, bj - 1), k + 1)
    else ((bi, bj), k)

/-- The forward extension loop of `find_longest_match`. -/
def extendFwd (a b : List Char) (ahi bhi : Nat) :
    Nat → (Nat × Nat) × Nat → (Nat × Nat) × Nat
  | 0, best => best
  | fuel + 1, ((bi, bj), k) =>
    if bi + k < ahi ∧ bj + k < bhi ∧ getC a (bi + k) = getC b (bj + k) then
      extendFwd a b ahi bhi fuel ((bi, bj), k + 1)
    else ((bi, bj), k)

/-- `SequenceMatcher.find_longest_match` on `a[alo:ahi]` × `b[blo:bhi]`. -/
def findLongestMatch (a b : List Char) (alo ahi blo bhi : Nat) : (Nat × Nat) × Nat :=
  let d := dpLoop a b blo bhi alo (ahi - alo) (fun _ => 0) ((alo, blo), 0)
  let d1 := extendBack a b alo blo (d.1.1 - alo) d
  extendFwd a b ahi bhi (ahi - (d1.1.1 + d1.2)) d1

/-- Total matched length over `get_matching_blocks`: the longest match, plus
recursively the matches of the left and right remainders. (The queue
traversal order and the merging of adjacent blocks in the source only affect
the block list, not this total.) -/
def smMatchesFuel (a b : List Char) : Nat → Nat → Nat → Nat → Nat → Nat
  | 0, _, _, _, _ => 0
  | fuel + 1, alo, ahi, blo, bhi =>
    let m := findLongestMatch a b alo ahi blo bhi
    if m.2 = 0 then 0
    else
      smMatchesFuel a b fuel alo m.1.1 blo m.1.2 + m.2 +
        smMatchesFuel a b fuel (m.1.1 + m.2) ahi (m.1.2 + m.2) bhi

/-- `M`: total matched length for the full sequences. -/
def smMatches (a b : List Char) : Nat :=
  smMatchesFuel a b (a.length + b.length + 1) 0 a.length 0 b.length

/-- `SequenceMatcher.ratio()`: `2M / T`, and `1.0` when `T = 0`. -/
def smRatio (a b : List Char) : ℚ :=
  if a.length + b.length = 0 then 1
  else 2 * (smMatches a b : ℚ) / ((a.length : ℚ) + (b.length : ℚ))

/-! ## The scorer (`WorkingRAGMetric.__call__` and `_check_key_info`) -/

/-- The fixed stop-word set of `_check_key_info`. -/
def stopWords : List (List Char) :=
  ["is".toList, "was".toList, "the".toList, "a".toList, "an".toList,
   "and".toList, "or".toList, "but".toList, "in".toList, "on".toList,
   "at".toList, "to".toList, "for".toList, "of".toList, "with".toList,
   "by".toList, "from".toList]

/-- Keep the first occurrence of each element: a deduplicated list models a
Python `set`, whose size is the list's length. -/
def dedupAcc (seen : List (List Char)) : List (List Char) → List (List Char)
  | [] => []
  | x :: xs =>
    if seen.contains x then dedupAcc seen xs
    else x :: dedupAcc (x :: seen) xs

/-- The distinct elements of a list, in order of first occurrence. -/
def dedup (l : List (List Char)) : List (List Char) := dedupAcc [] l

/-- `set(text.lower().split()) - stop_words`, as a duplicate-free list. -/
def keyWords (t : List Char) : List (List Char) :=
  (dedup (pySplit (lowerTxt t))).filter (fun w => !stopWords.contains w)

/-- The size of the intersection of two Python sets, as the number of
elements of the first duplicate-free list contained in the second. -/
def interCard (gw pw : List (List Char)) : Nat :=
  (gw.filter (fun w => pw.contains w)).length

/-- `WorkingRAGMetric._check_key_info`. -/
def checkKeyInfo (gold pred : List Char) : Bool :=
  let gw := keyWords gold
  let pw := keyWords pred
  if gw.isEmpty then false
  else decide ((1 : ℚ) / 2 ≤ (interCard gw pw : ℚ) / (gw.length : ℚ))

/-- `exact_match`: the lowercased normalized texts are identical. -/
def exactScore (gc pc : List Char) : ℚ :=
  if lowerTxt gc = lowerTxt pc then 1 else 0

/-- `similarity` before bonuses: the `SequenceMatcher` ratio of the
lowercased cleans. -/
def simRaw (gc pc : List Char) : ℚ :=
  smRatio (lowerTxt gc) (lowerTxt pc)

/-- The partial-match test: one lowercased clean is a substring of the other. -/
def subCond (gc pc : List Char) : Bool :=
  isSub (lowerTxt gc) (lowerTxt pc) || isSub (lowerTxt pc) (lowerTxt gc)

/-- `similarity` after the substring bonus. -/
def simWithSub (gc pc : List Char) : ℚ :=
  if subCond gc pc then max (simRaw gc pc) (7 / 10) else simRaw gc pc

/-- `similarity` after the key-info bonus (the value reported and used for
the total). -/
def simFinal (gc pc : List Char) : ℚ :=
  if checkKeyInfo gc pc then max (simWithSub gc pc) (8 / 10) else simWithSub gc pc

/-- `total_score = max(exact_match, similarity)`. -/
def totalScore (gc pc : List Char) : ℚ :=
  max (exactScore gc pc) (simFinal gc pc)

/-- A score result: a bare float, or the detailed mapping when `trace`. -/
inductive ScoreResult where
  | scalar (x : ℚ)
  | detailed (fields : List (String × ℚ))
deriving DecidableEq

/-- The scoring path of `__call__` after both texts extracted non-empty. -/
def scoreCore (gt pt : List Char) (trace : Bool) : ScoreResult :=
  let gc := normalizeText gt
  let pc := normalizeText pt
  if trace then
    .detailed
      [("exact_match", exactScore gc pc),
       ("similarity", simFinal gc pc),
       ("contains_key_info", if checkKeyInfo gc pc then 1 else 0),
       ("total", totalScore gc pc)]
  else .scalar (totalScore gc pc)

/-- The `try` block of `__call__`: extraction, the empty short-circuit, and
the scoring path; faults propagate as `Except.error`. -/
def tryScore (of : String) (gold pred : Value) (trace : Bool) :
    Except String ScoreResult :=
  match extractText of gold with
  | .error e => .error e
  | .ok gt =>
    match extractText of pred with
    | .error e => .error e
    | .ok pt =>
      if gt.isEmpty || pt.isEmpty then
        .ok (if trace then
               .detailed [("exact_match", 0), ("similarity", 0), ("total", 0)]
             else .scalar 0)
      else .ok (scoreCore gt pt trace)

/-- The sentinel returned by the `except` clause. -/
def sentinelResult (trace : Bool) : ScoreResult :=
  if trace then .detailed [("error", 1), ("total", 0)] else .scalar 0

/-- `WorkingRAGMetric.__call__`: the result, together with the list of
messages printed to the logging side channel by the `except` clause. -/
def callScore (of : String) (gold pred : Value) (trace : Bool) :
    ScoreResult × List String :=
  match tryScore of gold pred trace with
  | .ok r => (r, [])
  | .error e => (sentinelResult trace, ["Error in RAG metric: " ++ e])

/-! ## Spec-side similarity (the classic recursive longest-matching-block
alignment, following the spec's words for §4.3 step 4) -/

/-- Length of the common prefix of two lists. -/
def runLen : List Char → List Char → Nat
  | x :: xs, y :: ys => if x = y then runLen xs ys + 1 else 0
  | _, _ => 0

/-- Length of the longest common contiguous block starting at `(i, j)`,
capped at the range ends `ahi`, `bhi`. -/
def blockLenAt (a b : List Char) (ahi bhi i j : Nat) : Nat :=
  min (runLen (a.drop i) (b.drop j)) (min (ahi - i) (bhi - j))

/-- All pairs `(i, j)` with `i` in `[lo, lo + n)` (outer, ascending) and `j`
drawn from `inner i` (inner). -/
def pairList (inner : Nat → List Nat) : Nat → Nat → List (Nat × Nat)
  | _, 0 => []
  | i, n + 1 => (inner i).map (fun j => (i, j)) ++ pairList inner (i + 1) n

/-- Keep the first strict maximum of `f` seen along a fold. -/
def pickStep (f : Nat × Nat → Nat) (h : Nat × Nat → Nat → (Nat × Nat) × Nat)
    (acc : (Nat × Nat) × Nat) (p : Nat × Nat) : (Nat × Nat) × Nat :=
  if f p > acc.2 then h p (f p) else acc

/-- Following the spec's words: find the longest common contiguous block of
`a[alo:ahi]` × `b[blo:bhi]`, scanning start positions in order and keeping
the first strictly longer block (ties keep the earliest start). -/
def specLongestBlock (a b : List Char) (alo ahi blo bhi : Nat) : (Nat × Nat) × Nat :=
  (pairList (fun _ => List.range' blo (bhi - blo)) alo (ahi - alo)).foldl
    (pickStep (fun p => blockLenAt a b ahi bhi p.1 p.2) (fun p k => (p, k)))
    ((alo, blo), 0)

/-- Following the spec's words: total matched length of the classic
alignment — longest common block, then recurse on the left and right
remainders, summing matched lengths. -/
def specMatchesFuel (a b : List Char) : Nat → Nat → Nat → Nat → Nat → Nat
  | 0, _, _, _, _ => 0
  | fuel + 1, alo, ahi, blo, bhi =>
    let m := specLongestBlock a b alo ahi blo bhi
    if m.2 = 0 then 0
    else
      specMatchesFuel a b fuel alo m.1.1 blo m.1.2 + m.2 +
        specMatchesFuel a b fuel (m.1.1 + m.2) ahi (m.1.2 + m.2) bhi

/-- The spec's number of matching characters `M` for the full strings. -/
def specMatches (a b : List Char) : Nat :=
  specMatchesFuel a b (a.length + b.length + 1) 0 a.length 0 b.length

/-- The spec's similarity `2 × M ÷ T` (taken as `1` when `T = 0`, the only
convention compatible with an identity score of `1`). -/
def specRatio (a b : List Char) : ℚ :=
  if a.length + b.length = 0 then 1
  else 2 * (specMatches a b : ℚ) / ((a.length : ℚ) + (b.length : ℚ))

/-! ## Proof-layer definitions for the `find_longest_match` analysis -/

/-- The value `j2len[j]` holds after row `i` of the DP of
`find_longest_match`: the length of the common block ending at `(i, j)`,
chained through `b2j` hits and cut off below `alo`/at `j = 0`. -/
def chainLenEnd (a b : List Char) (alo blo bhi : Nat) : Nat → Nat → Nat
  | 0, j => if (validJs a b blo bhi 0).contains j then 1 else 0
  | i + 1, j =>
    if (validJs a b blo bhi (i + 1)).contains j then
      if i + 1 = alo then 1
      else
        match j with
        | 0 => 1
        | j' + 1 => chainLenEnd a b alo blo bhi i j' + 1
    else 0

/-- Maximum of `f` over a list of positions (0 when empty). -/
def listMaxF (f : Nat × Nat → Nat) : List (Nat × Nat) → Nat
  | [] => 0
  | p :: t => max (f p) (listMaxF f t)

/-- Strict lexicographic order on positions: the DP visits `(i, j)` pairs in
this order, as does the spec-side scan of start positions. -/
def lexLt (p q : Nat × Nat) : Prop :=
  p.1 < q.1 ∨ (p.1 = q.1 ∧ p.2 < q.2)

/-- A 200-character prediction-side text (`"b"` followed by 199 `"a"`s): the
shortest length at which the `SequenceMatcher` autojunk heuristic activates. -/
def longPredText : List Char := "baaaaaaaaaaaaaaaaaaaaaaaaaaaaaaaaaaaaaaaaaaaaaaaaaaaaaaaaaaaaaaaaaaaaaaaaaaaaaaaaaaaaaaaaaaaaaaaaaaaaaaaaaaaaaaaaaaaaaaaaaaaaaaaaaaaaaaaaaaaaaaaaaaaaaaaaaaaaaaaaaaaaaaaaaaaaaaaaaaaaaaaaaaaaaaaaaaaaaaa".toList

/-! ## Lemmas: stripping and the normalizer invariants -/

theorem dropWhile_cons_pos_length_le {p : Char → Bool} {c : Char} {cs : List Char}
    (h : p c = true) : ((c :: cs).dropWhile p).length ≤ cs.length := by
  rw [List.dropWhile_cons_of_pos h]
  exact (List.dropWhile_sublist p).length_le

theorem removeArticlesF_irrel :
    ∀ f₁ l f₂, l.length ≤ f₁ → l.length ≤ f₂ →
      removeArticlesF f₁ l = removeArticlesF f₂ l := by
  intro f₁
  induction f₁ with
  | zero =>
    intro l f₂ h1 _
    rw [List.length_eq_zero.mp (Nat.le_zero.mp h1)]
    cases f₂ <;> rfl
  | succ f ih =>
    intro l f₂ h1 h2
    cases l with
    | nil => cases f₂ <;> rfl
    | cons c cs =>
      cases f₂ with
      | zero => simp at h2
      | succ f₂' =>
        simp only [List.length_cons, Nat.succ_le_succ_iff] at h1 h2
        simp only [removeArticlesF]
        by_cases hw : isWordChar c
        · rw [if_pos hw, if_pos hw]
          congr 1
          exact ih _ _ ((dropWhile_cons_pos_length_le hw).trans h1)
            ((dropWhile_cons_pos_length_le hw).trans h2)
        · rw [if_neg hw, if_neg hw]
          congr 1
          exact ih _ _ h1 h2

theorem removeArticles_cons (c : Char) (cs : List Char) :
    removeArticles (c :: cs) =
      if isWordChar c then
        (if isArticle ((c :: cs).takeWhile isWordChar) then []
         else (c :: cs).takeWhile isWordChar) ++
          removeArticles ((c :: cs).dropWhile isWordChar)
      else c :: removeArticles cs := by
  show removeArticlesF (cs.length + 1) (c :: cs) = _
  simp only [removeArticlesF]
  by_cases hw : isWordChar c
  · rw [if_pos hw, if_pos hw]
    congr 1
    exact removeArticlesF_irrel _ _ _ (dropWhile_cons_pos_length_le hw) le_rfl
  · rw [if_neg hw, if_neg hw]
    exact rfl

theorem hasArticleRunF_irrel :
    ∀ f₁ l f₂, l.length ≤ f₁ → l.length ≤ f₂ →
      hasArticleRunF f₁ l = hasArticleRunF f₂ l := by
  intro f₁
  induction f₁ with
  | zero =>
    intro l f₂ h1 _
    rw [List.length_eq_zero.mp (Nat.le_zero.mp h1)]
    cases f₂ <;> rfl
  | succ f ih =>
    intro l f₂ h1 h2
    cases l with
    | nil => cases f₂ <;> rfl
    | cons c cs =>
      cases f₂ with
      | zero => simp at h2
      | succ f₂' =>
        simp only [List.length_cons, Nat.succ_le_succ_iff] at h1 h2
        simp only [hasArticleRunF]
        by_cases hw : isWordChar c
        · rw [if_pos hw, if_pos hw]
          congr 1
          exact ih _ _ ((dropWhile_cons_pos_length_le hw).trans h1)
            ((dropWhile_cons_pos_length_le hw).trans h2)
        · rw [if_neg hw, if_neg hw]
          exact ih _ _ h1 h2

theorem hasArticleRun_cons (c : Char) (cs : List Char) :
    hasArticleRun (c :: cs) =
      if isWordChar c then
        isArticle ((c :: cs).takeWhile isWordChar) ||
          hasArticleRun ((c :: cs).dropWhile isWordChar)
      else hasArticleRun cs := by
  show hasArticleRunF (cs.length + 1) (c :: cs) = _
  simp only [hasArticleRunF]
  by_cases hw : isWordChar c
  · rw [if_pos hw, if_pos hw]
    congr 1
    exact hasArticleRunF_irrel _ _ _ (dropWhile_cons_pos_length_le hw) le_rfl
  · rw [if_neg hw, if_neg hw]
    exact rfl

/-- Induction along maximal word-character runs: the recursion pattern shared
by `removeArticles` and `hasArticleRun`. -/
theorem wordRunInduction {motive : List Char → Prop} (hnil : motive [])
    (hword : ∀ c cs, isWordChar c = true →
      motive ((c :: cs).dropWhile isWordChar) → motive (c :: cs))
    (hother : ∀ c cs, isWordChar c = false → motive cs → motive (c :: cs)) :
    ∀ l, motive l := by
  have H : ∀ n l, l.length ≤ n → motive l := by
    intro n
    induction n with
    | zero =>
      intro l hl
      rw [List.length_eq_zero.mp (Nat.le_zero.mp hl)]
      exact hnil
    | succ n ihn =>
      intro l hl
      match l with
      | [] => exact hnil
      | c :: cs =>
        simp only [List.length_cons, Nat.succ_le_succ_iff] at hl
        by_cases hw : isWordChar c
        · exact hword c cs hw (ihn _ ((dropWhile_cons_pos_length_le hw).trans hl))
        · exact hother c cs (by simpa using hw) (ihn cs hl)
  exact fun l => H l.length l le_rfl

theorem head?_dropWhile_false {p : Char → Bool} :
    ∀ {l : List Char} {c : Char}, (l.dropWhile p).head? = some c → p c = false := by
  intro l
  induction l with
  | nil => intro c h; simp [List.dropWhile] at h
  | cons a t ih =>
    intro c h
    by_cases hp : p a
    · rw [List.dropWhile_cons_of_pos hp] at h
      exact ih h
    · rw [List.dropWhile_cons_of_neg hp] at h
      simp only [List.head?_cons, Option.some.injEq] at h
      subst h
      simpa using hp

theorem isPrefix_head?_eq {l₁ l₂ : List Char} {c : Char} (h : l₁ <+: l₂)
    (hh : l₁.head? = some c) : l₂.head? = some c := by
  obtain ⟨r, rfl⟩ := h
  cases l₁ with
  | nil => simp at hh
  | cons x t => simpa using hh

theorem dropTrail_front (l : List Char) : dropTrail l <+: l := by
  have h : (dropTrail l).reverse <:+ l.reverse := by
    unfold dropTrail
    rw [List.reverse_reverse]
    exact List.dropWhile_suffix pyIsSpace
  rw [List.reverse_suffix] at h
  exact h

theorem dropTrail_getLast?_false {l : List Char} {c : Char}
    (h : (dropTrail l).getLast? = some c) : pyIsSpace c = false := by
  unfold dropTrail at h
  rw [List.getLast?_reverse] at h
  exact head?_dropWhile_false h

theorem pyStrip_head?_false {l : List Char} {c : Char}
    (h : (pyStrip l).head? = some c) : pyIsSpace c = false :=
  head?_dropWhile_false
    (isPrefix_head?_eq (dropTrail_front (l.dropWhile pyIsSpace)) h)

theorem pyStrip_getLast?_false {l : List Char} {c : Char}
    (h : (pyStrip l).getLast? = some c) : pyIsSpace c = false :=
  dropTrail_getLast?_false h

theorem trimmedB_pyStrip (l : List Char) : trimmedB (pyStrip l) = true := by
  unfold trimmedB
  rw [Bool.and_eq_true]
  constructor
  · cases h : (pyStrip l).head? with
    | none => rfl
    | some c => simp [pyStrip_head?_false h]
  · cases h : (pyStrip l).getLast? with
    | none => rfl
    | some c => simp [pyStrip_getLast?_false h]

theorem dropTrail_sublist (l : List Char) : List.Sublist (dropTrail l) l :=
  (dropTrail_front l).sublist

theorem pyStrip_sublist (l : List Char) : List.Sublist (pyStrip l) l :=
  (dropTrail_sublist _).trans (List.dropWhile_sublist pyIsSpace)

theorem removeArticles_sublist : ∀ l : List Char, List.Sublist (removeArticles l) l := by
  intro l
  induction l using wordRunInduction with
  | hnil => exact List.Sublist.refl []
  | hword c cs hw ih =>
    rw [removeArticles_cons, if_pos hw]
    have hsplit : (c :: cs).takeWhile isWordChar ++ (c :: cs).dropWhile isWordChar
        = c :: cs := List.takeWhile_append_dropWhile isWordChar (c :: cs)
    by_cases ha : isArticle ((c :: cs).takeWhile isWordChar)
    · rw [if_pos ha]
      simp only [List.nil_append]
      exact ih.trans (List.dropWhile_sublist isWordChar)
    · rw [if_neg ha]
      have h1 : List.Sublist
          ((c :: cs).takeWhile isWordChar ++ removeArticles ((c :: cs).dropWhile isWordChar))
          ((c :: cs).takeWhile isWordChar ++ (c :: cs).dropWhile isWordChar) :=
        List.Sublist.append_left ih _
      rw [hsplit] at h1
      exact h1
  | hother c cs hw ih =>
    rw [removeArticles_cons, if_neg (by simp [hw])]
    exact ih.cons₂ c

theorem mem_normalizeText_not_punct {t : List Char} {c : Char}
    (h : c ∈ normalizeText t) : isPunctChar c = false := by
  have h0 : c ∈ pyStrip (removeArticles
      (List.filter (fun x => !isPunctChar x) (collapseWs (pyStrip t)))) := h
  have h1 := (pyStrip_sublist _).subset h0
  have h2 := (removeArticles_sublist _).subset h1
  rw [List.mem_filter] at h2
  simpa using h2.2

theorem removeArticles_cons_nonword {c : Char} {cs : List Char}
    (h : isWordChar c = false) :
    removeArticles (c :: cs) = c :: removeArticles cs := by
  rw [removeArticles_cons, if_neg (by simp [h])]

theorem removeArticles_head?_nonword {l : List Char}
    (h : ∀ d, l.head? = some d → isWordChar d = false) :
    ∀ d, (removeArticles l).head? = some d → isWordChar d = false := by
  intro d hd
  cases l with
  | nil => simp [removeArticles, removeArticlesF] at hd
  | cons x xs =>
    have hx : isWordChar x = false := h x rfl
    rw [removeArticles_cons_nonword hx] at hd
    simp only [List.head?_cons, Option.some.injEq] at hd
    subst hd
    exact hx

theorem hasArticleRun_cons_nonword {c : Char} {cs : List Char}
    (h : isWordChar c = false) :
    hasArticleRun (c :: cs) = hasArticleRun cs := by
  rw [hasArticleRun_cons, if_neg (by simp [h])]

theorem hasArticleRun_cons_word {c : Char} {cs : List Char}
    (h : isWordChar c = true) :
    hasArticleRun (c :: cs) =
      (isArticle ((c :: cs).takeWhile isWordChar) ||
        hasArticleRun ((c :: cs).dropWhile isWordChar)) := by
  rw [hasArticleRun_cons, if_pos h]

theorem takeWhile_word_append_run {run tail : List Char}
    (hrun : ∀ x ∈ run, isWordChar x = true)
    (htail : ∀ d, tail.head? = some d → isWordChar d = false) :
    (run ++ tail).takeWhile isWordChar = run := by
  rw [List.takeWhile_append_of_pos hrun]
  cases tail with
  | nil => simp
  | cons d ds =>
    rw [List.takeWhile_cons_of_neg (by simp [htail d rfl])]
    simp

theorem dropWhile_word_append_run {run tail : List Char}
    (hrun : ∀ x ∈ run, isWordChar x = true)
    (htail : ∀ d, tail.head? = some d → isWordChar d = false) :
    (run ++ tail).dropWhile isWordChar = tail := by
  rw [List.dropWhile_append_of_pos hrun]
  cases tail with
  | nil => simp
  | cons d ds => rw [List.dropWhile_cons_of_neg (by simp [htail d rfl])]

theorem hasArticleRun_run_append {run tail : List Char}
    (hne : run ≠ [])
    (hrun : ∀ x ∈ run, isWordChar x = true)
    (ha : isArticle run = false)
    (htail : ∀ d, tail.head? = some d → isWordChar d = false)
    (ht : hasArticleRun tail = false) :
    hasArticleRun (run ++ tail) = false := by
  cases run with
  | nil => exact absurd rfl hne
  | cons r rs =>
    have hr : isWordChar r = true := hrun r (by simp)
    have h1 : ((r :: rs) ++ tail).takeWhile isWordChar = r :: rs :=
      takeWhile_word_append_run hrun htail
    have h2 : ((r :: rs) ++ tail).dropWhile isWordChar = tail :=
      dropWhile_word_append_run hrun htail
    rw [List.cons_append] at h1 h2
    rw [List.cons_append, hasArticleRun_cons_word hr, h1, h2, ha, ht]
    rfl

theorem hasArticleRun_removeArticles :
    ∀ l : List Char, hasArticleRun (removeArticles l) = false := by
  intro l
  induction l using wordRunInduction with
  | hnil => rfl
  | hword c cs hw ih =>
    rw [removeArticles_cons, if_pos hw]
    have htail : ∀ d, (removeArticles ((c :: cs).dropWhile isWordChar)).head? = some d →
        isWordChar d = false :=
      removeArticles_head?_nonword (fun d hd => head?_dropWhile_false hd)
    by_cases ha : isArticle ((c :: cs).takeWhile isWordChar)
    · rw [if_pos ha, List.nil_append]
      exact ih
    · rw [if_neg ha]
      refine hasArticleRun_run_append ?_ ?_ ?_ htail ih
      · rw [List.takeWhile_cons_of_pos hw]
        simp
      · intro x hx
        exact List.mem_takeWhile_imp hx
      · simpa using ha
  | hother c cs hw ih =>
    rw [removeArticles_cons, if_neg (by simp [hw]),
      hasArticleRun_cons_nonword hw]
    exact ih

theorem pyIsSpace_not_word {c : Char} (h : pyIsSpace c = true) : isWordChar c = false := by
  simp only [pyIsSpace, Bool.or_eq_true, beq_iff_eq] at h
  rcases h with ((((h | h) | h) | h) | h) | h <;> subst h <;> decide

theorem hasArticleRun_dropWhile_space (l : List Char) :
    hasArticleRun (l.dropWhile pyIsSpace) = hasArticleRun l := by
  induction l with
  | nil => simp
  | cons c cs ih =>
    by_cases hs : pyIsSpace c
    · rw [List.dropWhile_cons_of_pos hs,
        hasArticleRun_cons_nonword (pyIsSpace_not_word hs)]
      exact ih
    · rw [List.dropWhile_cons_of_neg hs]

theorem dropTrail_decomp (l : List Char) :
    ∃ ws, l = dropTrail l ++ ws ∧ ∀ c ∈ ws, pyIsSpace c = true := by
  refine ⟨(l.reverse.takeWhile pyIsSpace).reverse, ?_, ?_⟩
  · unfold dropTrail
    rw [← List.reverse_append, List.takeWhile_append_dropWhile, List.reverse_reverse]
  · intro c hc
    rw [List.mem_reverse] at hc
    exact List.mem_takeWhile_imp hc

theorem hasArticleRun_append_spaces :
    ∀ core ws : List Char, (∀ c ∈ ws, pyIsSpace c = true) →
    hasArticleRun (core ++ ws) = false → hasArticleRun core = false := by
  intro core
  induction core using wordRunInduction with
  | hnil =>
    intro ws _ _
    rfl
  | hword c cs hw ih =>
    intro ws hws h
    have hwsHead : ∀ d, ws.head? = some d → isWordChar d = false := by
      intro d hd
      cases ws with
      | nil => simp at hd
      | cons x xs =>
        have hx : pyIsSpace x = true := hws x (by simp)
        simp only [List.head?_cons, Option.some.injEq] at hd
        rw [← hd]
        exact pyIsSpace_not_word hx
    have hsplit : (c :: cs).takeWhile isWordChar ++ (c :: cs).dropWhile isWordChar
        = c :: cs := List.takeWhile_append_dropWhile isWordChar (c :: cs)
    have hrun : ∀ x ∈ (c :: cs).takeWhile isWordChar, isWordChar x = true :=
      fun x hx => List.mem_takeWhile_imp hx
    have hrest : ∀ d, ((c :: cs).dropWhile isWordChar).head? = some d →
        isWordChar d = false := fun d hd => head?_dropWhile_false hd
    have hrestws : ∀ d, ((c :: cs).dropWhile isWordChar ++ ws).head? = some d →
        isWordChar d = false := by
      intro d hd
      cases hrw : (c :: cs).dropWhile isWordChar with
      | nil =>
        rw [hrw, List.nil_append] at hd
        exact hwsHead d hd
      | cons x xs =>
        rw [hrw, List.cons_append] at hd
        simp only [List.head?_cons, Option.some.injEq] at hd
        subst hd
        apply hrest
        rw [hrw]
        rfl
    have hbig : (c :: cs) ++ ws =
        (c :: cs).takeWhile isWordChar ++ ((c :: cs).dropWhile isWordChar ++ ws) := by
      rw [← List.append_assoc, hsplit]
    have hTake : ((c :: cs) ++ ws).takeWhile isWordChar
        = (c :: cs).takeWhile isWordChar := by
      rw [hbig]
      exact takeWhile_word_append_run hrun hrestws
    have hDrop : ((c :: cs) ++ ws).dropWhile isWordChar
        = (c :: cs).dropWhile isWordChar ++ ws := by
      rw [hbig]
      exact dropWhile_word_append_run hrun hrestws
    have hcons : ((c :: cs) ++ ws) = c :: (cs ++ ws) := by simp
    rw [hcons] at h hTake hDrop
    rw [hasArticleRun_cons_word hw, hTake, hDrop] at h
    rw [Bool.or_eq_false_iff] at h
    rw [hasArticleRun_cons_word hw, Bool.or_eq_false_iff]
    exact ⟨h.1, ih ws hws h.2⟩
  | hother c cs hw ih =>
    intro ws hws h
    rw [List.cons_append, hasArticleRun_cons_nonword hw] at h
    rw [hasArticleRun_cons_nonword hw]
    exact ih ws hws h

theorem hasArticleRun_pyStrip {l : List Char} (h : hasArticleRun l = false) :
    hasArticleRun (pyStrip l) = false := by
  unfold pyStrip
  obtain ⟨ws, hdecomp, hws⟩ := dropTrail_decomp (l.dropWhile pyIsSpace)
  apply hasArticleRun_append_spaces _ ws hws
  rw [← hdecomp, hasArticleRun_dropWhile_space]
  exact h

theorem hasArticleRun_normalizeText (t : List Char) :
    hasArticleRun (normalizeText t) = false := by
  show hasArticleRun (pyStrip (removeArticles _)) = false
  exact hasArticleRun_pyStrip (hasArticleRun_removeArticles _)

/-- C4, counterexample: the claim asserts the normalizer's output never
contains a whitespace run longer than one character, but normalizing
`"cat the dog"` yields `"cat  dog"`, which contains two consecutive
spaces (article removal leaves the surrounding spaces behind). -/
theorem c4_counterexample :
    hasWsWsPair (normalizeText "cat the dog".toList) = true := by decide

/-- C4 (amended): for every input text, the normalizer's output contains
none of the punctuation characters `. , ! ? ; : " '`, no standalone
whole-word occurrence of `the`/`a`/`an` in any letter case, and no leading
or trailing whitespace. (The no-long-whitespace-run part of the original
claim is dropped: it fails, as `c4_counterexample` shows.) -/
theorem c4_normalizer_invariants (t : List Char) :
    (normalizeText t).all (fun c => !isPunctChar c) = true ∧
    hasArticleRun (normalizeText t) = false ∧
    trimmedB (normalizeText t) = true := by
  refine ⟨?_, hasArticleRun_normalizeText t, ?_⟩
  · rw [List.all_eq_true]
    intro c hc
    simp [mem_normalizeText_not_punct hc]
  · show trimmedB (pyStrip _) = true
    exact trimmedB_pyStrip _

/-! ## Lemmas: the extractor -/

theorem trimmedB_of_brackets {s : List Char} {x y : Char}
    (hx : s.head? = some x) (hy : s.getLast? = some y)
    (hxs : pyIsSpace x = false) (hys : pyIsSpace y = false) :
    trimmedB s = true := by
  unfold trimmedB
  rw [hx, hy]
  simp [hxs, hys]

theorem pyReprE_dict_shape {fs : List (String × Value)} {s : List Char}
    (h : pyReprE (.dict fs) = .ok s) :
    s.head? = some lcurly ∧ s.getLast? = some rcurly := by
  cases hf : pyReprFields fs with
  | error e => rw [pyReprE, hf] at h; exact absurd h (by simp)
  | ok entries =>
    rw [pyReprE, hf] at h
    simp only [Except.ok.injEq] at h
    subst h
    refine ⟨rfl, ?_⟩
    rw [← List.cons_append]
    exact List.getLast?_concat _

theorem pyReprE_list_shape {items : List Value} {s : List Char}
    (h : pyReprE (.list items) = .ok s) :
    s.head? = some '[' ∧ s.getLast? = some ']' := by
  cases hf : pyReprItems items with
  | error e => rw [pyReprE, hf] at h; exact absurd h (by simp)
  | ok entries =>
    rw [pyReprE, hf] at h
    simp only [Except.ok.injEq] at h
    subst h
    refine ⟨rfl, ?_⟩
    rw [← List.cons_append]
    exact List.getLast?_concat _

mutual

theorem pyReprE_ok : ∀ v : Value, stringifiable v = true →
    ∃ s, pyReprE v = .ok s
  | .str s, _ => ⟨_, rfl⟩
  | .num n, _ => ⟨_, rfl⟩
  | .dict fields, h => by
    have h' : stringifiableFields fields = true := by
      rw [stringifiable] at h; exact h
    obtain ⟨es, hes⟩ := pyReprFields_ok fields h'
    exact ⟨_, by rw [pyReprE, hes]⟩
  | .list items, h => by
    have h' : stringifiableItems items = true := by
      rw [stringifiable] at h; exact h
    obtain ⟨es, hes⟩ := pyReprItems_ok items h'
    exact ⟨_, by rw [pyReprE, hes]⟩
  | .raising m, h => by rw [stringifiable] at h; exact absurd h (by simp)

theorem pyReprFields_ok : ∀ fs : List (String × Value),
    stringifiableFields fs = true → ∃ es, pyReprFields fs = .ok es
  | [], _ => ⟨[], rfl⟩
  | (k, v) :: rest, h => by
    rw [stringifiableFields, Bool.and_eq_true] at h
    obtain ⟨s, hs⟩ := pyReprE_ok v h.1
    obtain ⟨es, hes⟩ := pyReprFields_ok rest h.2
    exact ⟨_, by rw [pyReprFields, hs, hes]⟩

theorem pyReprItems_ok : ∀ vs : List Value,
    stringifiableItems vs = true → ∃ es, pyReprItems vs = .ok es
  | [], _ => ⟨[], rfl⟩
  | v :: rest, h => by
    rw [stringifiableItems, Bool.and_eq_true] at h
    obtain ⟨s, hs⟩ := pyReprE_ok v h.1
    obtain ⟨es, hes⟩ := pyReprItems_ok rest h.2
    exact ⟨_, by rw [pyReprItems, hs, hes]⟩

end

theorem pyStrE_ok (v : Value) (h : stringifiable v = true) :
    ∃ s, pyStrE v = .ok s := by
  cases v with
  | str s => exact ⟨s, rfl⟩
  | num n => exact ⟨_, rfl⟩
  | dict fields => exact pyReprE_ok _ h
  | list items => exact pyReprE_ok _ h
  | raising m => rw [stringifiable] at h; exact absurd h (by simp)

theorem lookup_stringifiable {fs : List (String × Value)} {k : String} {w : Value}
    (hfs : stringifiableFields fs = true) (hl : fs.lookup k = some w) :
    stringifiable w = true := by
  induction fs with
  | nil => simp [List.lookup] at hl
  | cons kv rest ih =>
    obtain ⟨k', v'⟩ := kv
    rw [stringifiableFields, Bool.and_eq_true] at hfs
    rw [List.lookup] at hl
    cases he : (k == k') with
    | true =>
      rw [he] at hl
      simp only [Option.some.injEq] at hl
      subst hl
      exact hfs.1
    | false =>
      rw [he] at hl
      exact ih hfs.2 hl

theorem fieldResult_spec {fields : List (String × Value)}
    (hfs : stringifiableFields fields = true) :
    ∀ flist r, fieldResult fields flist = some r →
      ∃ s, r = .ok s ∧ trimmedB s = true := by
  intro flist
  induction flist with
  | nil => intro r hr; simp [fieldResult] at hr
  | cons f fs ih =>
    intro r hr
    rw [fieldResult] at hr
    cases hl : fields.lookup f with
    | none =>
      rw [hl] at hr
      exact ih r hr
    | some w =>
      rw [hl] at hr
      cases w with
      | str s =>
        simp only [Option.some.injEq] at hr
        exact ⟨_, hr.symm, trimmedB_pyStrip s⟩
      | dict d =>
        simp only [Option.some.injEq] at hr
        have hw : stringifiable (Value.dict d) = true := lookup_stringifiable hfs hl
        obtain ⟨s, hs⟩ := pyReprE_ok _ hw
        obtain ⟨hh, hg⟩ := pyReprE_dict_shape hs
        exact ⟨s, by rw [← hr, hs], trimmedB_of_brackets hh hg (by decide) (by decide)⟩
      | list l =>
        simp only [Option.some.injEq] at hr
        have hw : stringifiable (Value.list l) = true := lookup_stringifiable hfs hl
        obtain ⟨s, hs⟩ := pyReprE_ok _ hw
        obtain ⟨hh, hg⟩ := pyReprE_list_shape hs
        exact ⟨s, by rw [← hr, hs], trimmedB_of_brackets hh hg (by decide) (by decide)⟩
      | num n => exact ih r hr
      | raising m => exact ih r hr

theorem extractText_ok_trimmed (of : String) :
    ∀ v : Value, stringifiable v = true →
      ∃ s, extractText of v = .ok s ∧ trimmedB s = true := by
  intro v hv
  cases v with
  | str s => exact ⟨pyStrip s, rfl, trimmedB_pyStrip s⟩
  | num n => exact ⟨pyStrip (toString n).toList, rfl, trimmedB_pyStrip _⟩
  | raising m => rw [stringifiable] at hv; exact absurd hv (by simp)
  | list items =>
    obtain ⟨s, hs⟩ := pyStrE_ok (.list items) hv
    refine ⟨pyStrip s, ?_, trimmedB_pyStrip s⟩
    show (match pyStrE (.list items) with
          | .error e => .error e
          | .ok s => .ok (pyStrip s)) = Except.ok (pyStrip s)
    rw [hs]
  | dict fields =>
    have hfs : stringifiableFields fields = true := by
      rw [stringifiable] at hv; exact hv
    cases hf : fieldResult fields [of, "answer", "response", "text"] with
    | some r =>
      obtain ⟨s, hr, hts⟩ := fieldResult_spec hfs _ r hf
      refine ⟨s, ?_, hts⟩
      rw [extractText]
      simp only [hf]
      exact hr
    | none =>
      cases ho : fields.lookup "outputs" with
      | none =>
        obtain ⟨s, hs⟩ := pyStrE_ok (.dict fields) hv
        refine ⟨pyStrip s, ?_, trimmedB_pyStrip s⟩
        rw [extractText]
        simp only [hf, ho, hs]
      | some w =>
        cases w with
        | dict od =>
          have hod : stringifiableFields od = true := by
            have := lookup_stringifiable hfs ho
            rw [stringifiable] at this; exact this
          cases ha : od.lookup "answer" with
          | some w' =>
            obtain ⟨s, hs⟩ := pyStrE_ok w' (lookup_stringifiable hod ha)
            refine ⟨pyStrip s, ?_, trimmedB_pyStrip s⟩
            rw [extractText]
            simp only [hf, ho, ha, hs]
          | none =>
            obtain ⟨s, hs⟩ := pyStrE_ok (.dict fields) hv
            refine ⟨pyStrip s, ?_, trimmedB_pyStrip s⟩
            rw [extractText]
            simp only [hf, ho, ha, hs]
        | str s' =>
          obtain ⟨s, hs⟩ := pyStrE_ok (.dict fields) hv
          refine ⟨pyStrip s, ?_, trimmedB_pyStrip s⟩
          rw [extractText]
          simp only [hf, ho, hs]
        | num n =>
          obtain ⟨s, hs⟩ := pyStrE_ok (.dict fields) hv
          refine ⟨pyStrip s, ?_, trimmedB_pyStrip s⟩
          rw [extractText]
          simp only [hf, ho, hs]
        | list l =>
          obtain ⟨s, hs⟩ := pyStrE_ok (.dict fields) hv
          refine ⟨pyStrip s, ?_, trimmedB_pyStrip s⟩
          rw [extractText]
          simp only [hf, ho, hs]
        | raising m =>
          obtain ⟨s, hs⟩ := pyStrE_ok (.dict fields) hv
          refine ⟨pyStrip s, ?_, trimmedB_pyStrip s⟩
          rw [extractText]
          simp only [hf, ho, hs]

theorem tryScore_ok_shape {of : String} {g p : Value} {r : ScoreResult}
    (h : tryScore of g p true = .ok r) :
    r = .detailed [("exact_match", 0), ("similarity", 0), ("total", 0)] ∨
    ∃ gt pt, r = scoreCore gt pt true := by
  rw [tryScore] at h
  cases he : extractText of g with
  | error e => simp only [he] at h; exact absurd h (by simp)
  | ok gt =>
    simp only [he] at h
    cases hp : extractText of p with
    | error e => simp only [hp] at h; exact absurd h (by simp)
    | ok pt =>
      simp only [hp] at h
      by_cases hemp : (gt.isEmpty || pt.isEmpty) = true
      · rw [if_pos hemp] at h
        simp only [Except.ok.injEq] at h
        exact Or.inl h.symm
      · rw [if_neg hemp] at h
        simp only [Except.ok.injEq] at h
        exact Or.inr ⟨gt, pt, h.symm⟩

/-- C8, counterexample: the claim says the extractor never fails, but on an
object whose stringification raises, `_extract_text` propagates the
exception (it is only caught later, in `__call__`). -/
theorem c8_counterexample :
    extractText "answer" (.raising "boom") = .error "boom" := rfl

/-- C8 (amended): for every input value all of whose components are
stringifiable, the extractor returns a text string with no leading or
trailing whitespace; in particular a matching mapping field holding a
nested mapping or sequence yields its (brace/bracket-delimited, hence
trimmed) string representation. Faults of stringification propagate to the
caller's catch instead (see `c8_counterexample`). -/
theorem c8_extractor_total_trimmed (of : String) (v : Value)
    (h : stringifiable v = true) :
    ∃ s, extractText of v = .ok s ∧ trimmedB s = true :=
  extractText_ok_trimmed of v h

/-- C8, witness: a dict whose `answer` field holds a list. -/
theorem c8_witness :
    stringifiable (Value.dict [("answer", Value.list [Value.str " x ".toList])]) = true ∧
    ∃ s, extractText "answer"
        (Value.dict [("answer", Value.list [Value.str " x ".toList])]) = .ok s ∧
      trimmedB s = true :=
  ⟨by decide, c8_extractor_total_trimmed "answer" _ (by decide)⟩

theorem fieldResult_skip_none (fields : List (String × Value)) :
    ∀ (pre fs : List String), (∀ g ∈ pre, fields.lookup g = none) →
      fieldResult fields (pre ++ fs) = fieldResult fields fs := by
  intro pre
  induction pre with
  | nil => intro fs _; rfl
  | cons g t ih =>
    intro fs hpre
    have hg : fields.lookup g = none := hpre g (List.mem_cons_self g t)
    show fieldResult fields (g :: (t ++ fs)) = fieldResult fields fs
    rw [fieldResult, hg]
    exact ih fs (fun x hx => hpre x (List.mem_cons_of_mem g hx))

theorem fieldResult_skip_bad (fields : List (String × Value)) (f : String)
    (fs : List String) (v : Value) (hf : fields.lookup f = some v)
    (hstr : ∀ s, v ≠ .str s) (hdict : ∀ d, v ≠ .dict d)
    (hlist : ∀ l, v ≠ .list l) :
    fieldResult fields (f :: fs) = fieldResult fields fs := by
  rw [fieldResult, hf]
  cases v with
  | str s => exact absurd rfl (hstr s)
  | dict d => exact absurd rfl (hdict d)
  | list l => exact absurd rfl (hlist l)
  | num n => rfl
  | raising e => rfl

/-- C10: for every key-value mapping input and configured output field, when
the first candidate field found among (configured output field, `answer`,
`response`, `text`) holds a value that is neither a text string nor a
mapping nor a sequence, the extractor does not use that field: the result
is the extraction continued on the remaining candidate fields — which
itself falls back to the nested `outputs.answer` path or to the string
representation of the entire mapping when no later candidate produces a
result. (`pre` lists the candidates before the first found field `f`.) -/
theorem c10_nonstring_field_skipped (of : String)
    (fields : List (String × Value)) (f : String) (pre post : List String)
    (v : Value)
    (hcands : [of, "answer", "response", "text"] = pre ++ f :: post)
    (hpre : ∀ g ∈ pre, fields.lookup g = none)
    (hf : fields.lookup f = some v)
    (hstr : ∀ s, v ≠ .str s) (hdict : ∀ d, v ≠ .dict d)
    (hlist : ∀ l, v ≠ .list l) :
    extractText of (.dict fields) = extractDictFrom fields post := by
  have h1 : fieldResult fields [of, "answer", "response", "text"] =
      fieldResult fields post := by
    rw [hcands, fieldResult_skip_none fields pre (f :: post) hpre,
      fieldResult_skip_bad fields f post v hf hstr hdict hlist]
  show extractDictFrom fields [of, "answer", "response", "text"] =
    extractDictFrom fields post
  unfold extractDictFrom
  rw [h1]

/-- C10, witness: the general theorem applied to a mapping whose first found
candidate field (`answer`, also the configured output field) holds a
number; the extraction continues with the remaining candidate fields. -/
theorem c10_witness :
    ([("answer", Value.num 42), ("response", Value.str "42".toList)].lookup "answer"
        = some (Value.num 42)) ∧
    extractText "answer"
        (.dict [("answer", Value.num 42), ("response", Value.str "42".toList)]) =
      extractDictFrom [("answer", Value.num 42), ("response", Value.str "42".toList)]
        ["answer", "response", "text"] :=
  ⟨rfl,
   c10_nonstring_field_skipped "answer"
     [("answer", Value.num 42), ("response", Value.str "42".toList)]
     "answer" [] ["answer", "response", "text"] (Value.num 42) rfl
     (fun g hg => absurd hg (List.not_mem_nil g))
     rfl
     (fun s h => Value.noConfusion h)
     (fun d h => Value.noConfusion h)
     (fun l h => Value.noConfusion h)⟩

/-- C7: the scoring call never propagates an exception: whenever the `try`
body faults, the call returns the sentinel (`{error: 1.0, total: 0.0}`
detailed, `0.0` scalar) and reports the fault on the logging side channel. -/
theorem c7_fault_sentinel (of : String) (g p : Value) (t : Bool) (e : String)
    (h : tryScore of g p t = .error e) :
    callScore of g p t = (sentinelResult t, ["Error in RAG metric: " ++ e]) ∧
    sentinelResult true = .detailed [("error", 1), ("total", 0)] ∧
    sentinelResult false = .scalar 0 := by
  refine ⟨?_, rfl, rfl⟩
  rw [callScore]
  simp only [h]

/-- C7, witness: an input whose stringification raises. -/
theorem c7_witness :
    tryScore "answer" (.raising "boom") (.str "x".toList) true = .error "boom" ∧
    callScore "answer" (.raising "boom") (.str "x".toList) true =
      (sentinelResult true, ["Error in RAG metric: " ++ "boom"]) :=
  ⟨rfl, (c7_fault_sentinel "answer" (.raising "boom") (.str "x".toList) true "boom" rfl).1⟩

/-- C9, counterexample: the claim says the detailed result always contains
`contains_key_info` or `error` alongside `total`, including when either
side extracts to empty text — but the empty short-circuit returns only
`exact_match`, `similarity`, `total`. -/
theorem c9_counterexample :
    (match (callScore "answer" (.str []) (.str "x".toList) true).1 with
     | .detailed fs =>
       (fs.lookup "contains_key_info").isNone && (fs.lookup "error").isNone &&
         (fs.lookup "total").isSome
     | .scalar _ => false) = true := by decide

/-- C9 (amended): the detailed result always contains `total`, and contains
`contains_key_info` or `error` — except in the empty-extraction
short-circuit, which returns exactly
`{exact_match: 0, similarity: 0, total: 0}`. -/
theorem c9_detailed_keys (of : String) (g p : Value) :
    ∃ fs, (callScore of g p true).1 = .detailed fs ∧
      (fs.lookup "total").isSome = true ∧
      ((fs.lookup "contains_key_info").isSome = true ∨
        (fs.lookup "error").isSome = true ∨
        fs = [("exact_match", 0), ("similarity", 0), ("total", 0)]) := by
  rw [callScore]
  cases ht : tryScore of g p true with
  | error e =>
    exact ⟨[("error", 1), ("total", 0)], rfl, by decide, Or.inr (Or.inl (by decide))⟩
  | ok r =>
    rcases tryScore_ok_shape ht with h | ⟨gt, pt, h⟩
    · subst h
      exact ⟨_, rfl, by decide, Or.inr (Or.inr rfl)⟩
    · subst h
      exact ⟨_, rfl, rfl, Or.inl rfl⟩

/-! ## Lemmas: `find_longest_match` range validity and the ratio bounds -/

theorem validJs_bounds {a b : List Char} {blo bhi i j : Nat}
    (h : j ∈ validJs a b blo bhi i) : blo ≤ j ∧ j < bhi := by
  unfold validJs at h
  rw [List.mem_filter] at h
  have h2 := h.2
  simp only [Bool.and_eq_true, decide_eq_true_eq] at h2
  exact h2

theorem contains_mem {j : Nat} {l : List Nat} (h : l.contains j = true) : j ∈ l := by
  simpa using h

theorem stepJ2_bound (a b : List Char) {alo blo bhi i : Nat} {j2len : Nat → Nat}
    (halo : alo ≤ i)
    (hinv : ∀ j, j2len j ≤ i - alo ∧
      (0 < j2len j → blo ≤ j ∧ j < bhi ∧ j2len j ≤ j + 1 - blo)) :
    ∀ j, stepJ2 (validJs a b blo bhi i) j2len j ≤ i + 1 - alo ∧
      (0 < stepJ2 (validJs a b blo bhi i) j2len j →
        blo ≤ j ∧ j < bhi ∧
          stepJ2 (validJs a b blo bhi i) j2len j ≤ j + 1 - blo) := by
  intro j
  unfold stepJ2
  by_cases hj : (validJs a b blo bhi i).contains j = true
  · rw [if_pos hj]
    obtain ⟨hjb, hjh⟩ := validJs_bounds (contains_mem hj)
    cases j with
    | zero =>
      have h0 : (if (0 : Nat) = 0 then (0 : Nat) else j2len (0 - 1)) = 0 := by simp
      rw [h0]
      exact ⟨by omega, fun _ => ⟨hjb, hjh, by omega⟩⟩
    | succ j' =>
      rw [if_neg (by omega), Nat.add_sub_cancel]
      have h1 := (hinv j').1
      have h2 := (hinv j').2
      constructor
      · omega
      · intro _
        refine ⟨hjb, hjh, ?_⟩
        by_cases hz : 0 < j2len j'
        · have h3 := (h2 hz).2.2
          omega
        · omega
  · rw [if_neg hj]
    exact ⟨by omega, by omega⟩

theorem innerBest_valid {alo ahi blo bhi i : Nat} {nj : Nat → Nat}
    (hi : alo ≤ i) (hih : i < ahi)
    (hnj : ∀ j, nj j ≤ i + 1 - alo ∧
      (0 < nj j → blo ≤ j ∧ j < bhi ∧ nj j ≤ j + 1 - blo)) :
    ∀ js best, alo ≤ best.1.1 → blo ≤ best.1.2 →
      best.1.1 + best.2 ≤ ahi → best.1.2 + best.2 ≤ bhi →
      alo ≤ (innerBest i nj js best).1.1 ∧ blo ≤ (innerBest i nj js best).1.2 ∧
      (innerBest i nj js best).1.1 + (innerBest i nj js best).2 ≤ ahi ∧
      (innerBest i nj js best).1.2 + (innerBest i nj js best).2 ≤ bhi := by
  intro js
  induction js with
  | nil => intro best h1 h2 h3 h4; exact ⟨h1, h2, h3, h4⟩
  | cons j rest ih =>
    intro best h1 h2 h3 h4
    rw [innerBest, List.foldl_cons]
    by_cases hk : nj j > best.2
    · rw [if_pos hk]
      have hk0 : 0 < nj j := by omega
      obtain ⟨hjb, hjh, hjlen⟩ := (hnj j).2 hk0
      have hle : nj j ≤ i + 1 - alo := (hnj j).1
      exact ih ((i + 1 - nj j, j + 1 - nj j), nj j)
        (by dsimp only; omega) (by dsimp only; omega)
        (by dsimp only; omega) (by dsimp only; omega)
    · rw [if_neg hk]
      exact ih best h1 h2 h3 h4

theorem dpLoop_valid (a b : List Char) (alo ahi blo bhi : Nat) :
    ∀ fuel i j2len best, alo ≤ i → i + fuel ≤ ahi →
      (∀ j, j2len j ≤ i - alo ∧
        (0 < j2len j → blo ≤ j ∧ j < bhi ∧ j2len j ≤ j + 1 - blo)) →
      alo ≤ best.1.1 → blo ≤ best.1.2 →
      best.1.1 + best.2 ≤ ahi → best.1.2 + best.2 ≤ bhi →
      alo ≤ (dpLoop a b blo bhi i fuel j2len best).1.1 ∧
      blo ≤ (dpLoop a b blo bhi i fuel j2len best).1.2 ∧
      (dpLoop a b blo bhi i fuel j2len best).1.1 +
        (dpLoop a b blo bhi i fuel j2len best).2 ≤ ahi ∧
      (dpLoop a b blo bhi i fuel j2len best).1.2 +
        (dpLoop a b blo bhi i fuel j2len best).2 ≤ bhi := by
  intro fuel
  induction fuel with
  | zero =>
    intro i j2len best _ _ _ h1 h2 h3 h4
    exact ⟨h1, h2, h3, h4⟩
  | succ f ih =>
    intro i j2len best hi hf hinv h1 h2 h3 h4
    rw [dpLoop]
    have hstep := stepJ2_bound a b hi hinv
    have hib := innerBest_valid hi (by omega) hstep
      (validJs a b blo bhi i) best h1 h2 h3 h4
    exact ih (i + 1) _ _ (by omega) (by omega)
      (by
        intro j
        have hsj := hstep j
        exact ⟨by omega, hsj.2⟩)
      hib.1 hib.2.1 hib.2.2.1 hib.2.2.2

theorem extendBack_valid (a b : List Char) (alo ahi blo bhi : Nat) :
    ∀ fuel best, alo ≤ best.1.1 → blo ≤ best.1.2 →
      best.1.1 + best.2 ≤ ahi → best.1.2 + best.2 ≤ bhi →
      alo ≤ (extendBack a b alo blo fuel best).1.1 ∧
      blo ≤ (extendBack a b alo blo fuel best).1.2 ∧
      (extendBack a b alo blo fuel best).1.1 +
        (extendBack a b alo blo fuel best).2 ≤ ahi ∧
      (extendBack a b alo blo fuel best).1.2 +
        (extendBack a b alo blo fuel best).2 ≤ bhi := by
  intro fuel
  induction fuel with
  | zero => intro best h1 h2 h3 h4; exact ⟨h1, h2, h3, h4⟩
  | succ f ih =>
    intro best h1 h2 h3 h4
    obtain ⟨⟨bi, bj⟩, k⟩ := best
    dsimp only at h1 h2 h3 h4
    rw [extendBack]
    by_cases hc : alo < bi ∧ blo < bj ∧ getC a (bi - 1) = getC b (bj - 1)
    · rw [if_pos hc]
      obtain ⟨hc1, hc2, _⟩ := hc
      exact ih ((bi - 1, bj - 1), k + 1)
        (by dsimp only; omega) (by dsimp only; omega)
        (by dsimp only; omega) (by dsimp only; omega)
    · rw [if_neg hc]
      exact ⟨h1, h2, h3, h4⟩

theorem extendFwd_valid (a b : List Char) (alo ahi blo bhi : Nat) :
    ∀ fuel best, alo ≤ best.1.1 → blo ≤ best.1.2 →
      best.1.1 + best.2 ≤ ahi → best.1.2 + best.2 ≤ bhi →
      alo ≤ (extendFwd a b ahi bhi fuel best).1.1 ∧
      blo ≤ (extendFwd a b ahi bhi fuel best).1.2 ∧
      (extendFwd a b ahi bhi fuel best).1.1 +
        (extendFwd a b ahi bhi fuel best).2 ≤ ahi ∧
      (extendFwd a b ahi bhi fuel best).1.2 +
        (extendFwd a b ahi bhi fuel best).2 ≤ bhi := by
  intro fuel
  induction fuel with
  | zero => intro best h1 h2 h3 h4; exact ⟨h1, h2, h3, h4⟩
  | succ f ih =>
    intro best h1 h2 h3 h4
    obtain ⟨⟨bi, bj⟩, k⟩ := best
    dsimp only at h1 h2 h3 h4
    rw [extendFwd]
    by_cases hc : bi + k < ahi ∧ bj + k < bhi ∧ getC a (bi + k) = getC b (bj + k)
    · rw [if_pos hc]
      obtain ⟨hc1, hc2, _⟩ := hc
      exact ih ((bi, bj), k + 1)
        (by dsimp only; omega) (by dsimp only; omega)
        (by dsimp only; omega) (by dsimp only; omega)
    · rw [if_neg hc]
      exact ⟨h1, h2, h3, h4⟩

theorem findLongestMatch_valid {a b : List Char} {alo ahi blo bhi : Nat}
    (h1 : alo ≤ ahi) (h2 : blo ≤ bhi) :
    alo ≤ (findLongestMatch a b alo ahi blo bhi).1.1 ∧
    blo ≤ (findLongestMatch a b alo ahi blo bhi).1.2 ∧
    (findLongestMatch a b alo ahi blo bhi).1.1 +
      (findLongestMatch a b alo ahi blo bhi).2 ≤ ahi ∧
    (findLongestMatch a b alo ahi blo bhi).1.2 +
      (findLongestMatch a b alo ahi blo bhi).2 ≤ bhi := by
  have hd := dpLoop_valid a b alo ahi blo bhi
    (ahi - alo) alo (fun _ => 0) ((alo, blo), 0)
    le_rfl (by omega) (fun j => ⟨by simp, by simp⟩)
    le_rfl le_rfl (by simpa using h1) (by simpa using h2)
  have he := extendBack_valid a b alo ahi blo bhi
    (((dpLoop a b blo bhi alo (ahi - alo) (fun _ => 0) ((alo, blo), 0)).1.1) - alo)
    (dpLoop a b blo bhi alo (ahi - alo) (fun _ => 0) ((alo, blo), 0))
    hd.1 hd.2.1 hd.2.2.1 hd.2.2.2
  exact extendFwd_valid a b alo ahi blo bhi _ _ he.1 he.2.1 he.2.2.1 he.2.2.2

theorem smMatchesFuel_le (a b : List Char) :
    ∀ fuel alo ahi blo bhi, alo ≤ ahi → blo ≤ bhi →
      smMatchesFuel a b fuel alo ahi blo bhi ≤ min (ahi - alo) (bhi - blo) := by
  intro fuel
  induction fuel with
  | zero => intro alo ahi blo bhi _ _; simp [smMatchesFuel]
  | succ f ih =>
    intro alo ahi blo bhi h1 h2
    rw [smMatchesFuel]
    by_cases hz : (findLongestMatch a b alo ahi blo bhi).2 = 0
    · rw [if_pos hz]
      omega
    · rw [if_neg hz]
      obtain ⟨v1, v2, v3, v4⟩ := findLongestMatch_valid h1 h2
      have hL := ih alo (findLongestMatch a b alo ahi blo bhi).1.1
        blo (findLongestMatch a b alo ahi blo bhi).1.2 v1 v2
      have hR := ih ((findLongestMatch a b alo ahi blo bhi).1.1 +
          (findLongestMatch a b alo ahi blo bhi).2) ahi
        ((findLongestMatch a b alo ahi blo bhi).1.2 +
          (findLongestMatch a b alo ahi blo bhi).2) bhi v3 v4
      omega

theorem smMatches_le (a b : List Char) :
    smMatches a b ≤ min a.length b.length := by
  have := smMatchesFuel_le a b (a.length + b.length + 1) 0 a.length 0 b.length
    (Nat.zero_le _) (Nat.zero_le _)
  simpa [smMatches] using this

theorem smRatio_nonneg (a b : List Char) : 0 ≤ smRatio a b := by
  unfold smRatio
  by_cases h : a.length + b.length = 0
  · rw [if_pos h]; norm_num
  · rw [if_neg h]
    apply div_nonneg
    · have h1 : (0 : ℚ) ≤ (smMatches a b : ℚ) := Nat.cast_nonneg _
      linarith
    · have h2 : (0 : ℚ) ≤ (a.length : ℚ) := Nat.cast_nonneg _
      have h3 : (0 : ℚ) ≤ (b.length : ℚ) := Nat.cast_nonneg _
      linarith

theorem smRatio_le_one (a b : List Char) : smRatio a b ≤ 1 := by
  unfold smRatio
  by_cases h : a.length + b.length = 0
  · rw [if_pos h]
  · rw [if_neg h]
    have hpos : (0 : ℚ) < (a.length : ℚ) + (b.length : ℚ) := by
      have hp : 0 < a.length + b.length := Nat.pos_of_ne_zero h
      exact_mod_cast hp
    rw [div_le_one hpos]
    have hm := smMatches_le a b
    have hma : (smMatches a b : ℚ) ≤ (a.length : ℚ) := by
      have := le_trans hm (Nat.min_le_left _ _)
      exact_mod_cast this
    have hmb : (smMatches a b : ℚ) ≤ (b.length : ℚ) := by
      have := le_trans hm (Nat.min_le_right _ _)
      exact_mod_cast this
    linarith

theorem simRaw_nonneg (gc pc : List Char) : 0 ≤ simRaw gc pc := smRatio_nonneg _ _

theorem simRaw_le_one (gc pc : List Char) : simRaw gc pc ≤ 1 := smRatio_le_one _ _

theorem simWithSub_nonneg (gc pc : List Char) : 0 ≤ simWithSub gc pc := by
  unfold simWithSub
  split
  · exact le_trans (simRaw_nonneg gc pc) (le_max_left _ _)
  · exact simRaw_nonneg gc pc

theorem simWithSub_le_one (gc pc : List Char) : simWithSub gc pc ≤ 1 := by
  unfold simWithSub
  split
  · exact max_le (simRaw_le_one gc pc) (by norm_num)
  · exact simRaw_le_one gc pc

theorem simFinal_nonneg (gc pc : List Char) : 0 ≤ simFinal gc pc := by
  unfold simFinal
  split
  · exact le_trans (simWithSub_nonneg gc pc) (le_max_left _ _)
  · exact simWithSub_nonneg gc pc

theorem simFinal_le_one (gc pc : List Char) : simFinal gc pc ≤ 1 := by
  unfold simFinal
  split
  · exact max_le (simWithSub_le_one gc pc) (by norm_num)
  · exact simWithSub_le_one gc pc

theorem exactScore_nonneg (gc pc : List Char) : 0 ≤ exactScore gc pc := by
  unfold exactScore
  split <;> norm_num

theorem exactScore_le_one (gc pc : List Char) : exactScore gc pc ≤ 1 := by
  unfold exactScore
  split <;> norm_num

theorem totalScore_nonneg (gc pc : List Char) : 0 ≤ totalScore gc pc :=
  le_trans (exactScore_nonneg gc pc) (le_max_left _ _)

theorem totalScore_le_one (gc pc : List Char) : totalScore gc pc ≤ 1 :=
  max_le (exactScore_le_one gc pc) (simFinal_le_one gc pc)

theorem isEmpty_false_of_ne {l : List Char} (h : l ≠ []) : l.isEmpty = false := by
  cases l with
  | nil => exact absurd rfl h
  | cons c cs => rfl

theorem totalScore_of_exact {gc pc : List Char} (h : exactScore gc pc = 1) :
    totalScore gc pc = 1 := by
  unfold totalScore
  rw [h]
  exact max_eq_left (simFinal_le_one gc pc)

theorem exactScore_self (gc : List Char) : exactScore gc gc = 1 := by
  unfold exactScore
  rw [if_pos rfl]

theorem tryScore_str_self {of : String} {x : List Char} {trace : Bool}
    (h : pyStrip x ≠ []) :
    tryScore of (.str x) (.str x) trace =
      .ok (scoreCore (pyStrip x) (pyStrip x) trace) := by
  have hne : (pyStrip x).isEmpty = false := isEmpty_false_of_ne h
  show (if ((pyStrip x).isEmpty || (pyStrip x).isEmpty) = true then
          Except.ok (if trace = true then
            ScoreResult.detailed [("exact_match", 0), ("similarity", 0), ("total", 0)]
          else ScoreResult.scalar 0)
        else Except.ok (scoreCore (pyStrip x) (pyStrip x) trace)) =
      Except.ok (scoreCore (pyStrip x) (pyStrip x) trace)
  rw [hne]
  rfl

theorem tryScore_str_pair {of : String} {x y : List Char} {trace : Bool}
    (hx : pyStrip x ≠ []) (hy : pyStrip y ≠ []) :
    tryScore of (.str x) (.str y) trace =
      .ok (scoreCore (pyStrip x) (pyStrip y) trace) := by
  have hnex : (pyStrip x).isEmpty = false := isEmpty_false_of_ne hx
  have hney : (pyStrip y).isEmpty = false := isEmpty_false_of_ne hy
  show (if ((pyStrip x).isEmpty || (pyStrip y).isEmpty) = true then
          Except.ok (if trace = true then
            ScoreResult.detailed [("exact_match", 0), ("similarity", 0), ("total", 0)]
          else ScoreResult.scalar 0)
        else Except.ok (scoreCore (pyStrip x) (pyStrip y) trace)) =
      Except.ok (scoreCore (pyStrip x) (pyStrip y) trace)
  rw [hnex, hney]
  rfl

/-- C1, counterexample: the claim quantifies over every text string, but at
the empty string both sides extract to empty text and the short-circuit
returns zero, not 1.0. -/
theorem c1_counterexample :
    callScore "answer" (.str []) (.str []) false = (.scalar 0, []) ∧
    (callScore "answer" (.str []) (.str []) true).1 =
      .detailed [("exact_match", 0), ("similarity", 0), ("total", 0)] :=
  ⟨rfl, rfl⟩

/-- C1 (amended): for every text string whose trimmed value is non-empty,
scoring the string against itself yields `exact_match = 1.0` and
`total = 1.0` in detailed mode, and `1.0` as the scalar result. -/
theorem c1_identity_nonempty (of : String) (x : List Char)
    (h : pyStrip x ≠ []) :
    callScore of (.str x) (.str x) false = (.scalar 1, []) ∧
    ∃ fs, callScore of (.str x) (.str x) true = (.detailed fs, []) ∧
      fs.lookup "exact_match" = some 1 ∧ fs.lookup "total" = some 1 := by
  have hex : exactScore (normalizeText (pyStrip x)) (normalizeText (pyStrip x)) = 1 :=
    exactScore_self _
  have htot : totalScore (normalizeText (pyStrip x)) (normalizeText (pyStrip x)) = 1 :=
    totalScore_of_exact hex
  constructor
  · rw [callScore, tryScore_str_self h]
    show (ScoreResult.scalar
      (totalScore (normalizeText (pyStrip x)) (normalizeText (pyStrip x))), _) = _
    rw [htot]
  · refine ⟨[("exact_match", exactScore (normalizeText (pyStrip x)) (normalizeText (pyStrip x))),
       ("similarity", simFinal (normalizeText (pyStrip x)) (normalizeText (pyStrip x))),
       ("contains_key_info",
         if checkKeyInfo (normalizeText (pyStrip x)) (normalizeText (pyStrip x)) then 1 else 0),
       ("total", totalScore (normalizeText (pyStrip x)) (normalizeText (pyStrip x)))],
       ?_, ?_, ?_⟩
    · rw [callScore, tryScore_str_self h]
      rfl
    · show List.lookup "exact_match"
        [("exact_match", exactScore (normalizeText (pyStrip x)) (normalizeText (pyStrip x))),
         ("similarity", simFinal (normalizeText (pyStrip x)) (normalizeText (pyStrip x))),
         ("contains_key_info",
           if checkKeyInfo (normalizeText (pyStrip x)) (normalizeText (pyStrip x)) then 1 else 0),
         ("total", totalScore (normalizeText (pyStrip x)) (normalizeText (pyStrip x)))] = some 1
      rw [hex]
      rfl
    · show List.lookup "total"
        [("exact_match", exactScore (normalizeText (pyStrip x)) (normalizeText (pyStrip x))),
         ("similarity", simFinal (normalizeText (pyStrip x)) (normalizeText (pyStrip x))),
         ("contains_key_info",
           if checkKeyInfo (normalizeText (pyStrip x)) (normalizeText (pyStrip x)) then 1 else 0),
         ("total", totalScore (normalizeText (pyStrip x)) (normalizeText (pyStrip x)))] = some 1
      rw [htot]
      rfl

/-- C1, witness. -/
theorem c1_witness :
    pyStrip "Paris".toList ≠ [] ∧
    (callScore "answer" (.str "Paris".toList) (.str "Paris".toList) false
        = (.scalar 1, []) ∧
      ∃ fs, callScore "answer" (.str "Paris".toList) (.str "Paris".toList) true
          = (.detailed fs, []) ∧
        fs.lookup "exact_match" = some 1 ∧ fs.lookup "total" = some 1) :=
  ⟨by decide, c1_identity_nonempty "answer" "Paris".toList (by decide)⟩

theorem tryScore_false_shape {of : String} {g p : Value} {r : ScoreResult}
    (h : tryScore of g p false = .ok r) :
    r = .scalar 0 ∨
    ∃ gt pt, r = .scalar (totalScore (normalizeText gt) (normalizeText pt)) := by
  rw [tryScore] at h
  cases he : extractText of g with
  | error e => simp only [he] at h; exact absurd h (by simp)
  | ok gt =>
    simp only [he] at h
    cases hp : extractText of p with
    | error e => simp only [hp] at h; exact absurd h (by simp)
    | ok pt =>
      simp only [hp] at h
      by_cases hemp : (gt.isEmpty || pt.isEmpty) = true
      · rw [if_pos hemp] at h
        simp only [Except.ok.injEq] at h
        exact Or.inl h.symm
      · rw [if_neg hemp] at h
        simp only [Except.ok.injEq] at h
        exact Or.inr ⟨gt, pt, h.symm⟩

/-- C2: for every pair of input values, the scalar call returns a scalar
value lying in `[0, 1]`, and the detailed call returns a mapping that
carries a `total` key whose value lies in `[0, 1]`. -/
theorem c2_scores_in_unit_interval (of : String) (g p : Value) :
    (∃ x log, callScore of g p false = (.scalar x, log) ∧ 0 ≤ x ∧ x ≤ 1) ∧
    (∃ fs log q, callScore of g p true = (.detailed fs, log) ∧
      fs.lookup "total" = some q ∧ 0 ≤ q ∧ q ≤ 1) := by
  constructor
  · cases ht : tryScore of g p false with
    | error e =>
      refine ⟨0, ["Error in RAG metric: " ++ e], ?_, le_rfl, by norm_num⟩
      rw [callScore, ht]
      rfl
    | ok r =>
      rcases tryScore_false_shape ht with h0 | ⟨gt, pt, h0⟩
      · refine ⟨0, [], ?_, le_rfl, by norm_num⟩
        rw [callScore, ht, h0]
      · refine ⟨totalScore (normalizeText gt) (normalizeText pt), [], ?_,
          totalScore_nonneg _ _, totalScore_le_one _ _⟩
        rw [callScore, ht, h0]
  · cases ht : tryScore of g p true with
    | error e =>
      refine ⟨[("error", 1), ("total", 0)], ["Error in RAG metric: " ++ e], 0,
        ?_, rfl, le_rfl, by norm_num⟩
      rw [callScore, ht]
      rfl
    | ok r =>
      rcases tryScore_ok_shape ht with h0 | ⟨gt, pt, h0⟩
      · refine ⟨[("exact_match", 0), ("similarity", 0), ("total", 0)], [], 0,
          ?_, rfl, le_rfl, by norm_num⟩
        rw [callScore, ht, h0]
      · refine ⟨[("exact_match", exactScore (normalizeText gt) (normalizeText pt)),
            ("similarity", simFinal (normalizeText gt) (normalizeText pt)),
            ("contains_key_info",
              if checkKeyInfo (normalizeText gt) (normalizeText pt) then 1 else 0),
            ("total", totalScore (normalizeText gt) (normalizeText pt))], [],
          totalScore (normalizeText gt) (normalizeText pt), ?_, rfl,
          totalScore_nonneg _ _, totalScore_le_one _ _⟩
        rw [callScore, ht, h0]
        rfl

theorem normalizeText_nil : normalizeText [] = [] := rfl

theorem tryScore_of_extract {of : String} {g p : Value} {gt pt : List Char}
    {trace : Bool} (hg : extractText of g = .ok gt) (hp : extractText of p = .ok pt)
    (hgt : gt ≠ []) (hpt : pt ≠ []) :
    tryScore of g p trace = .ok (scoreCore gt pt trace) := by
  rw [tryScore]
  simp only [hg, hp]
  rw [isEmpty_false_of_ne hgt, isEmpty_false_of_ne hpt]
  rfl

theorem simWithSub_ge_simRaw (gc pc : List Char) :
    simRaw gc pc ≤ simWithSub gc pc := by
  unfold simWithSub
  split
  · exact le_max_left _ _
  · exact le_rfl

theorem simFinal_ge_simWithSub (gc pc : List Char) :
    simWithSub gc pc ≤ simFinal gc pc := by
  unfold simFinal
  split
  · exact le_max_left _ _
  · exact le_rfl

theorem totalScore_ge_simFinal (gc pc : List Char) :
    simFinal gc pc ≤ totalScore gc pc := le_max_right _ _

theorem totalScore_of_subCond {gc pc : List Char} (h : subCond gc pc = true) :
    7 / 10 ≤ totalScore gc pc := by
  have h1 : (7 / 10 : ℚ) ≤ simWithSub gc pc := by
    unfold simWithSub
    rw [if_pos h]
    exact le_max_right _ _
  exact h1.trans ((simFinal_ge_simWithSub gc pc).trans (totalScore_ge_simFinal gc pc))

/-- C5: when neither lowercased normalized text is empty and one is a
substring of the other, the total is at least `0.7` (in both detailed and
scalar modes), and the substring bonus never lowers the similarity. -/
theorem c5_substring_bonus (of : String) (g p : Value) (gt pt : List Char)
    (hg : extractText of g = .ok gt) (hp : extractText of p = .ok pt)
    (hgc : lowerTxt (normalizeText gt) ≠ []) (hpc : lowerTxt (normalizeText pt) ≠ [])
    (hsub : subCond (normalizeText gt) (normalizeText pt) = true) :
    (callScore of g p false).1 =
      .scalar (totalScore (normalizeText gt) (normalizeText pt)) ∧
    (∃ fs, (callScore of g p true).1 = .detailed fs ∧
      fs.lookup "total" = some (totalScore (normalizeText gt) (normalizeText pt))) ∧
    7 / 10 ≤ totalScore (normalizeText gt) (normalizeText pt) ∧
    (∀ gc pc, simRaw gc pc ≤ simWithSub gc pc) := by
  have hgt : gt ≠ [] := by
    intro h
    exact hgc (by rw [h]; rfl)
  have hpt : pt ≠ [] := by
    intro h
    exact hpc (by rw [h]; rfl)
  refine ⟨?_,
    ⟨[("exact_match", exactScore (normalizeText gt) (normalizeText pt)),
      ("similarity", simFinal (normalizeText gt) (normalizeText pt)),
      ("contains_key_info",
        if checkKeyInfo (normalizeText gt) (normalizeText pt) then 1 else 0),
      ("total", totalScore (normalizeText gt) (normalizeText pt))], ?_, ?_⟩,
    totalScore_of_subCond hsub, simWithSub_ge_simRaw⟩
  · rw [callScore, tryScore_of_extract hg hp hgt hpt]
    rfl
  · rw [callScore, tryScore_of_extract hg hp hgt hpt]
    rfl
  · rfl

/-- C5, witness: gold `"Paris"`, prediction `"in Paris town"`. -/
theorem c5_witness :
    (callScore "answer" (.str "Paris".toList) (.str "in Paris town".toList) false).1 =
      .scalar (totalScore (normalizeText (pyStrip "Paris".toList))
        (normalizeText (pyStrip "in Paris town".toList))) ∧
    (∃ fs, (callScore "answer" (.str "Paris".toList)
        (.str "in Paris town".toList) true).1 = .detailed fs ∧
      fs.lookup "total" = some (totalScore (normalizeText (pyStrip "Paris".toList))
        (normalizeText (pyStrip "in Paris town".toList)))) ∧
    7 / 10 ≤ totalScore (normalizeText (pyStrip "Paris".toList))
      (normalizeText (pyStrip "in Paris town".toList)) ∧
    (∀ gc pc, simRaw gc pc ≤ simWithSub gc pc) :=
  c5_substring_bonus "answer" (.str "Paris".toList) (.str "in Paris town".toList)
    (pyStrip "Paris".toList) (pyStrip "in Paris town".toList)
    rfl rfl (by decide) (by decide) (by decide)

theorem checkKeyInfo_iff (g p : List Char) :
    checkKeyInfo g p = true ↔
      (keyWords g ≠ [] ∧
        (1 : ℚ) / 2 ≤ (interCard (keyWords g) (keyWords p) : ℚ) /
          ((keyWords g).length : ℚ)) := by
  unfold checkKeyInfo
  by_cases h : (keyWords g).isEmpty = true
  · rw [if_pos h]
    have hempty : keyWords g = [] := by simpa [List.isEmpty_iff] using h
    constructor
    · intro hc
      simp at hc
    · intro hc
      exact absurd hempty hc.1
  · rw [if_neg h]
    simp only [decide_eq_true_eq]
    constructor
    · intro hq
      refine ⟨?_, hq⟩
      intro hnil
      exact h (by simp [hnil])
    · intro hq
      exact hq.2

/-- C6: the key-info signal is true iff the gold word set (case-insensitive,
stop words removed) is non-empty and at least half of it occurs in the
prediction's word set; when true, the similarity used for the total is
raised to at least 0.8, and the key-info bonus never lowers it. -/
theorem c6_key_info_bonus (g p gc pc : List Char) :
    (checkKeyInfo g p = true ↔
      (keyWords g ≠ [] ∧
        (1 : ℚ) / 2 ≤ (interCard (keyWords g) (keyWords p) : ℚ) /
          ((keyWords g).length : ℚ))) ∧
    (checkKeyInfo gc pc = true → 8 / 10 ≤ simFinal gc pc) ∧
    simWithSub gc pc ≤ simFinal gc pc := by
  refine ⟨checkKeyInfo_iff g p, ?_, simFinal_ge_simWithSub gc pc⟩
  intro hk
  unfold simFinal
  rw [if_pos hk]
  exact le_max_right _ _

/-- C6, witness: gold `"cats and dogs are pets"`, prediction
`"dogs cats pets"` — 3 of the 4 gold key words occur in the prediction. -/
theorem c6_witness :
    checkKeyInfo "cats and dogs are pets".toList "dogs cats pets".toList = true ∧
    8 / 10 ≤ simFinal "cats and dogs are pets".toList "dogs cats pets".toList := by
  have hk : checkKeyInfo "cats and dogs are pets".toList "dogs cats pets".toList
      = true := by
    rw [checkKeyInfo_iff]
    constructor
    · decide
    · have h1 : interCard (keyWords "cats and dogs are pets".toList)
          (keyWords "dogs cats pets".toList) = 3 := by decide
      have h2 : (keyWords "cats and dogs are pets".toList).length = 4 := by decide
      rw [h1, h2]
      norm_num
  exact ⟨hk, (c6_key_info_bonus "cats and dogs are pets".toList
    "dogs cats pets".toList "cats and dogs are pets".toList
    "dogs cats pets".toList).2.1 hk⟩

/-! ## Lemmas: the DP of `find_longest_match` equals the spec's scan -/

theorem mem_range1 {s n m : Nat} : m ∈ List.range' s n ↔ s ≤ m ∧ m < s + n := by
  rw [List.mem_range']
  constructor
  · rintro ⟨i, hi, rfl⟩
    omega
  · intro h
    exact ⟨m - s, by omega, by omega⟩

theorem pairList_mem {inner : Nat → List Nat} :
    ∀ {n lo : Nat} {p : Nat × Nat},
      p ∈ pairList inner lo n ↔ (lo ≤ p.1 ∧ p.1 < lo + n ∧ p.2 ∈ inner p.1) := by
  intro n
  induction n with
  | zero =>
    intro lo p
    simp [pairList]
    omega
  | succ k ih =>
    intro lo p
    rw [pairList, List.mem_append, List.mem_map, ih]
    constructor
    · rintro (⟨j, hj, rfl⟩ | ⟨h1, h2, h3⟩)
      · exact ⟨le_rfl, by omega, hj⟩
      · exact ⟨by omega, by omega, h3⟩
    · rintro ⟨h1, h2, h3⟩
      by_cases hlo : p.1 = lo
      · left
        exact ⟨p.2, by rw [hlo] at h3; exact h3, by rw [← hlo]⟩
      · right
        exact ⟨by omega, by omega, h3⟩

theorem pairList_sorted {inner : Nat → List Nat}
    (hin : ∀ i, List.Pairwise (· < ·) (inner i)) :
    ∀ (n lo : Nat), List.Pairwise lexLt (pairList inner lo n) := by
  intro n
  induction n with
  | zero => intro lo; constructor
  | succ k ih =>
    intro lo
    rw [pairList, List.pairwise_append]
    refine ⟨List.Pairwise.map _ ?_ (hin lo), ih (lo + 1), ?_⟩
    · intro x y hxy
      exact Or.inr ⟨rfl, hxy⟩
    · rintro ⟨i1, j1⟩ h1 ⟨i2, j2⟩ h2
      rw [List.mem_map] at h1
      obtain ⟨j, _, hj⟩ := h1
      rw [pairList_mem] at h2
      left
      have : i1 = lo := by
        have := congrArg Prod.fst hj
        simpa using this.symm
      simp only [this]
      exact lt_of_lt_of_le (by omega) h2.1

theorem indicesOfFrom_ge (c : Char) :
    ∀ (l : List Char) (k j : Nat), j ∈ indicesOfFrom c l k → k ≤ j := by
  intro l
  induction l with
  | nil => intro k j h; rw [indicesOfFrom] at h; simp at h
  | cons y ys ihy =>
    intro k j h
    rw [indicesOfFrom] at h
    by_cases hy : (y == c) = true
    · rw [if_pos hy] at h
      rcases List.mem_cons.mp h with rfl | h2
      · exact le_rfl
      · exact le_trans (Nat.le_succ k) (ihy _ _ h2)
    · rw [if_neg hy] at h
      exact le_trans (Nat.le_succ k) (ihy _ _ h)

theorem indicesOfFrom_sorted (c : Char) :
    ∀ (l : List Char) (k : Nat), List.Pairwise (· < ·) (indicesOfFrom c l k) := by
  intro l
  induction l with
  | nil => intro k; rw [indicesOfFrom]; constructor
  | cons x xs ih =>
    intro k
    rw [indicesOfFrom]
    by_cases hx : (x == c) = true
    · rw [if_pos hx]
      refine List.Pairwise.cons ?_ (ih (k + 1))
      intro j hj
      exact lt_of_lt_of_le (Nat.lt_succ_self k) (indicesOfFrom_ge c xs (k + 1) j hj)
    · rw [if_neg hx]
      exact ih (k + 1)

theorem validJs_sorted (a b : List Char) (blo bhi i : Nat) :
    List.Pairwise (· < ·) (validJs a b blo bhi i) := by
  unfold validJs b2j
  split
  · constructor
  · exact List.Pairwise.filter _ (indicesOfFrom_sorted _ _ 0)

theorem find?_min {l : List (Nat × Nat)} {P : Nat × Nat → Bool} {q : Nat × Nat}
    (hs : List.Pairwise lexLt l) (hf : l.find? P = some q) :
    ∀ p ∈ l, P p = true → q = p ∨ lexLt q p := by
  induction l with
  | nil => simp at hf
  | cons x t ih =>
    intro p hp hP
    rw [List.find?_cons] at hf
    by_cases hx : P x = true
    · simp only [hx, if_true] at hf
      simp only [Option.some.injEq] at hf
      subst hf
      rcases List.mem_cons.mp hp with rfl | h2
      · exact Or.inl rfl
      · exact Or.inr (List.rel_of_pairwise_cons hs h2)
    · have hx' : P x = false := by simpa using hx
      simp only [hx', if_false] at hf
      rcases List.mem_cons.mp hp with rfl | h2
      · exact absurd hP hx
      · exact ih (List.Pairwise.sublist (List.sublist_cons_self x t) hs) hf p h2 hP

theorem listMaxF_le {f : Nat × Nat → Nat} :
    ∀ {l : List (Nat × Nat)} {p : Nat × Nat}, p ∈ l → f p ≤ listMaxF f l := by
  intro l
  induction l with
  | nil => intro p h; simp at h
  | cons x t ih =>
    intro p h
    rw [listMaxF]
    rcases List.mem_cons.mp h with rfl | h2
    · exact le_max_left _ _
    · exact le_trans (ih h2) (le_max_right _ _)

theorem listMaxF_attained {f : Nat × Nat → Nat} :
    ∀ {l : List (Nat × Nat)}, listMaxF f l = 0 ∨ ∃ p ∈ l, f p = listMaxF f l := by
  intro l
  induction l with
  | nil => exact Or.inl rfl
  | cons x t ih =>
    rw [listMaxF]
    by_cases h : listMaxF f t ≤ f x
    · right
      exact ⟨x, List.mem_cons_self x t, (max_eq_left h).symm⟩
    · rcases ih with h0 | ⟨p, hp, hfp⟩
      · omega
      · right
        exact ⟨p, List.mem_cons_of_mem x hp, by omega⟩

theorem pickFold_spec (f : Nat × Nat → Nat) (h : Nat × Nat → Nat → (Nat × Nat) × Nat)
    (hh : ∀ p k, (h p k).2 = k) :
    ∀ (l : List (Nat × Nat)) (c : (Nat × Nat) × Nat),
      (listMaxF f l ≤ c.2 → l.foldl (pickStep f h) c = c) ∧
      (c.2 < listMaxF f l →
        ∃ q, l.find? (fun p => f p == listMaxF f l) = some q ∧
          l.foldl (pickStep f h) c = h q (listMaxF f l)) := by
  intro l
  induction l with
  | nil =>
    intro c
    exact ⟨fun _ => rfl, fun hc => absurd hc (by rw [listMaxF]; omega)⟩
  | cons p t ih =>
    intro c
    rw [listMaxF, List.foldl_cons]
    constructor
    · intro hle
      have hfp : ¬(f p > c.2) := by omega
      rw [pickStep, if_neg hfp]
      exact (ih c).1 (by omega)
    · intro hlt
      by_cases hfp : f p > c.2
      · rw [pickStep, if_pos hfp]
        by_cases hm : listMaxF f t ≤ f p
        · have hmax : max (f p) (listMaxF f t) = f p := max_eq_left hm
          rw [hmax]
          refine ⟨p, ?_, ?_⟩
          · rw [List.find?_cons]
            have : (f p == f p) = true := by simp
            simp only [hmax, this, if_true]
          · have := (ih (h p (f p))).1 (by rw [hh]; omega)
            rw [this]
        · have hmax : max (f p) (listMaxF f t) = listMaxF f t := max_eq_right (by omega)
          rw [hmax]
          have hlt2 : (h p (f p)).2 < listMaxF f t := by rw [hh]; omega
          obtain ⟨q, hq1, hq2⟩ := (ih (h p (f p))).2 hlt2
          refine ⟨q, ?_, hq2⟩
          rw [List.find?_cons]
          have : (f p == listMaxF f t) = false := by
            simp only [beq_eq_false_iff_ne]
            omega
          simp only [this, if_false]
          exact hq1
      · rw [pickStep, if_neg hfp]
        have hmax : max (f p) (listMaxF f t) = listMaxF f t := max_eq_right (by omega)
        rw [hmax]
        obtain ⟨q, hq1, hq2⟩ := (ih c).2 (by omega)
        refine ⟨q, ?_, hq2⟩
        rw [List.find?_cons]
        have : (f p == listMaxF f t) = false := by
          simp only [beq_eq_false_iff_ne]
          omega
        simp only [this, if_false]
        exact hq1

theorem foldl_congr_mem {g₁ g₂ : ((Nat × Nat) × Nat) → Nat → ((Nat × Nat) × Nat)} :
    ∀ (l : List Nat) (c : (Nat × Nat) × Nat),
      (∀ x ∈ l, ∀ acc, g₁ acc x = g₂ acc x) →
      l.foldl g₁ c = l.foldl g₂ c := by
  intro l
  induction l with
  | nil => intro c _; rfl
  | cons x t ih =>
    intro c hc
    rw [List.foldl_cons, List.foldl_cons, hc x (List.mem_cons_self x t) c]
    exact ih _ (fun y hy acc => hc y (List.mem_cons_of_mem x hy) acc)

theorem chainLenEnd_zero (a b : List Char) (alo blo bhi j : Nat) :
    chainLenEnd a b alo blo bhi 0 j =
      if (validJs a b blo bhi 0).contains j then 1 else 0 := rfl

theorem chainLenEnd_succ_zero (a b : List Char) (alo blo bhi i : Nat) :
    chainLenEnd a b alo blo bhi (i + 1) 0 =
      if (validJs a b blo bhi (i + 1)).contains 0 then
        (if i + 1 = alo then 1 else 1) else 0 := rfl

theorem chainLenEnd_succ_succ (a b : List Char) (alo blo bhi i j : Nat) :
    chainLenEnd a b alo blo bhi (i + 1) (j + 1) =
      if (validJs a b blo bhi (i + 1)).contains (j + 1) then
        (if i + 1 = alo then 1 else chainLenEnd a b alo blo bhi i j + 1)
      else 0 := rfl

theorem stepJ2_eq_chainLen (a b : List Char) (alo blo bhi : Nat) {i : Nat}
    {j2len : Nat → Nat} (hi : alo ≤ i)
    (hprev : ∀ j, j2len j =
      if i = alo then 0 else chainLenEnd a b alo blo bhi (i - 1) j) :
    ∀ j, stepJ2 (validJs a b blo bhi i) j2len j =
      chainLenEnd a b alo blo bhi i j := by
  intro j
  unfold stepJ2
  cases i with
  | zero =>
    rw [chainLenEnd_zero]
    by_cases hc : (validJs a b blo bhi 0).contains j = true
    · rw [if_pos hc, if_pos hc]
      cases j with
      | zero => simp
      | succ j' =>
        rw [if_neg (by omega : ¬ j' + 1 = 0), Nat.add_sub_cancel, hprev j',
          if_pos (by omega : (0 : Nat) = alo)]
    · rw [if_neg hc, if_neg hc]
  | succ i' =>
    by_cases hc : (validJs a b blo bhi (i' + 1)).contains j = true
    · cases j with
      | zero =>
        rw [chainLenEnd_succ_zero, if_pos hc, if_pos hc]
        simp
      | succ j' =>
        rw [chainLenEnd_succ_succ, if_pos hc, if_pos hc,
          if_neg (by omega : ¬ j' + 1 = 0), Nat.add_sub_cancel, hprev j']
        by_cases halo : i' + 1 = alo
        · rw [if_pos halo, if_pos halo]
        · rw [if_neg halo, if_neg halo, Nat.add_sub_cancel]
    · cases j with
      | zero => rw [chainLenEnd_succ_zero, if_neg hc, if_neg hc]
      | succ j' => rw [chainLenEnd_succ_succ, if_neg hc, if_neg hc]

theorem dpLoop_eq_fold (a b : List Char) (alo blo bhi : Nat) :
    ∀ (fuel i : Nat) (j2len : Nat → Nat) (best : (Nat × Nat) × Nat),
      alo ≤ i →
      (∀ j, j2len j =
        if i = alo then 0 else chainLenEnd a b alo blo bhi (i - 1) j) →
      dpLoop a b blo bhi i fuel j2len best =
        (pairList (validJs a b blo bhi) i fuel).foldl
          (pickStep (fun p => chainLenEnd a b alo blo bhi p.1 p.2)
            (fun p k => ((p.1 + 1 - k, p.2 + 1 - k), k))) best := by
  intro fuel
  induction fuel with
  | zero => intro i j2len best _ _; rfl
  | succ fl ih =>
    intro i j2len best hi hprev
    have hnj : ∀ j, stepJ2 (validJs a b blo bhi i) j2len j =
        chainLenEnd a b alo blo bhi i j :=
      stepJ2_eq_chainLen a b alo blo bhi hi hprev
    have hinner : innerBest i (stepJ2 (validJs a b blo bhi i) j2len)
        (validJs a b blo bhi i) best =
        ((validJs a b blo bhi i).map (fun j => (i, j))).foldl
          (pickStep (fun p => chainLenEnd a b alo blo bhi p.1 p.2)
            (fun p k => ((p.1 + 1 - k, p.2 + 1 - k), k))) best := by
      rw [List.foldl_map]
      unfold innerBest
      apply foldl_congr_mem
      intro x _ acc
      rw [hnj x]
      rfl
    rw [dpLoop, pairList, List.foldl_append, hinner]
    exact ih (i + 1) _ _ (by omega)
      (by
        intro j
        rw [if_neg (by omega), Nat.add_sub_cancel]
        exact hnj j)

theorem mem_contains {j : Nat} {l : List Nat} (h : j ∈ l) : l.contains j = true := by
  simpa using h

theorem getC_cons_zero (x : Char) (xs : List Char) : getC (x :: xs) 0 = x := rfl

theorem getC_cons_succ (x : Char) (xs : List Char) (n : Nat) :
    getC (x :: xs) (n + 1) = getC xs n := rfl

theorem getC_drop (l : List Char) : ∀ (s r : Nat), getC (l.drop s) r = getC l (s + r) := by
  induction l with
  | nil => intro s r; cases s <;> rfl
  | cons x xs ih =>
    intro s r
    cases s with
    | zero => rw [List.drop_zero, Nat.zero_add]
    | succ s' =>
      rw [List.drop_succ_cons, ih s' r]
      rw [show s' + 1 + r = (s' + r) + 1 by omega, getC_cons_succ]

theorem runLen_nil_left (ys : List Char) : runLen [] ys = 0 := by cases ys <;> rfl

theorem runLen_nil_right (xs : List Char) : runLen xs [] = 0 := by cases xs <;> rfl

theorem runLen_cons (x y : Char) (xs ys : List Char) :
    runLen (x :: xs) (y :: ys) = if x = y then runLen xs ys + 1 else 0 := rfl

theorem runLen_chars : ∀ (xs ys : List Char) (r : Nat), r < runLen xs ys →
    r < xs.length ∧ r < ys.length ∧ getC xs r = getC ys r := by
  intro xs
  induction xs with
  | nil => intro ys r h; rw [runLen_nil_left] at h; omega
  | cons x xs ih =>
    intro ys r h
    cases ys with
    | nil => rw [runLen_nil_right] at h; omega
    | cons y ys =>
      rw [runLen_cons] at h
      by_cases hxy : x = y
      · rw [if_pos hxy] at h
        cases r with
        | zero =>
          refine ⟨by simp, by simp, ?_⟩
          rw [getC_cons_zero, getC_cons_zero, hxy]
        | succ r' =>
          obtain ⟨h1, h2, h3⟩ := ih ys r' (by omega)
          refine ⟨by simp only [List.length_cons]; omega,
            by simp only [List.length_cons]; omega, ?_⟩
          rw [getC_cons_succ, getC_cons_succ]
          exact h3
      · rw [if_neg hxy] at h; omega

theorem runLen_ge : ∀ (k : Nat) (xs ys : List Char),
    (∀ r < k, r < xs.length ∧ r < ys.length ∧ getC xs r = getC ys r) →
    k ≤ runLen xs ys := by
  intro k
  induction k with
  | zero => intro xs ys _; omega
  | succ k' ih =>
    intro xs ys h
    obtain ⟨h1, h2, h3⟩ := h 0 (by omega)
    cases xs with
    | nil => simp at h1
    | cons x xs =>
      cases ys with
      | nil => simp at h2
      | cons y ys =>
        rw [getC_cons_zero, getC_cons_zero] at h3
        rw [runLen_cons, if_pos h3]
        have hrec : k' ≤ runLen xs ys := by
          apply ih
          intro r hr
          obtain ⟨g1, g2, g3⟩ := h (r + 1) (by omega)
          simp only [List.length_cons] at g1 g2
          rw [getC_cons_succ, getC_cons_succ] at g3
          exact ⟨by omega, by omega, g3⟩
        omega

theorem mem_indicesOfFrom (c : Char) :
    ∀ (l : List Char) (k j : Nat),
      j ∈ indicesOfFrom c l k ↔ (k ≤ j ∧ j - k < l.length ∧ getC l (j - k) = c) := by
  intro l
  induction l with
  | nil =>
    intro k j
    rw [indicesOfFrom]
    simp
  | cons x xs ih =>
    intro k j
    rw [indicesOfFrom]
    by_cases hx : (x == c) = true
    · rw [if_pos hx, List.mem_cons, ih (k + 1) j]
      constructor
      · rintro (rfl | ⟨h1, h2, h3⟩)
        · refine ⟨le_rfl, by simp, ?_⟩
          rw [Nat.sub_self, getC_cons_zero]
          exact eq_of_beq hx
        · refine ⟨by omega, by simp only [List.length_cons]; omega, ?_⟩
          rw [show j - k = (j - (k + 1)) + 1 by omega, getC_cons_succ]
          exact h3
      · rintro ⟨h1, h2, h3⟩
        by_cases hjk : j = k
        · exact Or.inl hjk
        · right
          refine ⟨by omega, by simp only [List.length_cons] at h2; omega, ?_⟩
          rw [show j - k = (j - (k + 1)) + 1 by omega, getC_cons_succ] at h3
          exact h3
    · rw [if_neg hx, ih (k + 1) j]
      constructor
      · rintro ⟨h1, h2, h3⟩
        refine ⟨by omega, by simp only [List.length_cons]; omega, ?_⟩
        rw [show j - k = (j - (k + 1)) + 1 by omega, getC_cons_succ]
        exact h3
      · rintro ⟨h1, h2, h3⟩
        by_cases hjk : j = k
        · subst hjk
          rw [Nat.sub_self, getC_cons_zero] at h3
          exact absurd (by simp [h3]) hx
        · refine ⟨by omega, by simp only [List.length_cons] at h2; omega, ?_⟩
          rw [show j - k = (j - (k + 1)) + 1 by omega, getC_cons_succ] at h3
          exact h3

theorem mem_validJs {a b : List Char} {blo bhi i : Nat}
    (hpop : ∀ c, isPopular b c = false) (j : Nat) :
    j ∈ validJs a b blo bhi i ↔
      (blo ≤ j ∧ j < bhi ∧ j < b.length ∧ getC b j = getC a i) := by
  unfold validJs b2j indicesOf
  rw [hpop (getC a i)]
  simp only [Bool.false_eq_true, if_false, List.mem_filter,
    mem_indicesOfFrom, Bool.and_eq_true, decide_eq_true_eq, Nat.sub_zero,
    Nat.zero_le, true_and]
  constructor
  · rintro ⟨⟨h1, h2⟩, h3, h4⟩
    exact ⟨h3, h4, h1, h2⟩
  · rintro ⟨h1, h2, h3, h4⟩
    exact ⟨⟨h3, h4⟩, h1, h2⟩

theorem range1_pairwise : ∀ (n s : Nat), List.Pairwise (· < ·) (List.range' s n) := by
  intro n
  induction n with
  | zero => intro s; constructor
  | succ k ih =>
    intro s
    rw [List.range'_succ]
    refine List.Pairwise.cons ?_ (ih (s + 1))
    intro m hm
    have := (mem_range1).mp hm
    omega

theorem chainLenEnd_pos {a b : List Char} {alo blo bhi i j : Nat}
    (hc : (validJs a b blo bhi i).contains j = true) :
    1 ≤ chainLenEnd a b alo blo bhi i j := by
  cases i with
  | zero => rw [chainLenEnd_zero, if_pos hc]
  | succ i' =>
    cases j with
    | zero =>
      rw [chainLenEnd_succ_zero, if_pos hc]
      split <;> omega
    | succ j' =>
      rw [chainLenEnd_succ_succ, if_pos hc]
      split <;> omega

theorem chainLenEnd_chars (a b : List Char) (alo blo bhi : Nat) :
    ∀ (i j r : Nat), alo ≤ i → r < chainLenEnd a b alo blo bhi i j →
      r ≤ i - alo ∧ r ≤ j ∧
        (validJs a b blo bhi (i - r)).contains (j - r) = true := by
  intro i
  induction i with
  | zero =>
    intro j r hi hr
    rw [chainLenEnd_zero] at hr
    by_cases hc : (validJs a b blo bhi 0).contains j = true
    · rw [if_pos hc] at hr
      have hr0 : r = 0 := by omega
      subst hr0
      exact ⟨by omega, by omega, by simpa using hc⟩
    · rw [if_neg hc] at hr; omega
  | succ i' ih =>
    intro j r hi hr
    by_cases hc : (validJs a b blo bhi (i' + 1)).contains j = true
    · by_cases halo : i' + 1 = alo
      · have h1 : chainLenEnd a b alo blo bhi (i' + 1) j = 1 := by
          cases j with
          | zero => rw [chainLenEnd_succ_zero, if_pos hc, if_pos halo]
          | succ j' => rw [chainLenEnd_succ_succ, if_pos hc, if_pos halo]
        rw [h1] at hr
        have hr0 : r = 0 := by omega
        subst hr0
        exact ⟨by omega, by omega, by simpa using hc⟩
      · cases j with
        | zero =>
          rw [chainLenEnd_succ_zero, if_pos hc, if_neg halo] at hr
          have hr0 : r = 0 := by omega
          subst hr0
          exact ⟨by omega, by omega, by simpa using hc⟩
        | succ j' =>
          rw [chainLenEnd_succ_succ, if_pos hc, if_neg halo] at hr
          cases r with
          | zero => exact ⟨by omega, by omega, by simpa using hc⟩
          | succ r' =>
            obtain ⟨g1, g2, g3⟩ := ih j' r' (by omega) (by omega)
            refine ⟨by omega, by omega, ?_⟩
            rw [show i' + 1 - (r' + 1) = i' - r' by omega,
              show j' + 1 - (r' + 1) = j' - r' by omega]
            exact g3
    · have h0 : chainLenEnd a b alo blo bhi (i' + 1) j = 0 := by
        cases j with
        | zero => rw [chainLenEnd_succ_zero, if_neg hc]
        | succ j' => rw [chainLenEnd_succ_succ, if_neg hc]
      rw [h0] at hr; omega

theorem chainLenEnd_of_run (a b : List Char) (alo blo bhi i0 j0 : Nat)
    (hi0 : alo ≤ i0) :
    ∀ k, (∀ r, r ≤ k → (validJs a b blo bhi (i0 + r)).contains (j0 + r) = true) →
      k + 1 ≤ chainLenEnd a b alo blo bhi (i0 + k) (j0 + k) := by
  intro k
  induction k with
  | zero =>
    intro h
    have := @chainLenEnd_pos a b alo blo bhi (i0 + 0) (j0 + 0) (h 0 le_rfl)
    simpa using this
  | succ k' ih =>
    intro h
    have hrec := ih (fun r hr => h r (by omega))
    have hc := h (k' + 1) le_rfl
    rw [show i0 + (k' + 1) = (i0 + k') + 1 by omega,
      show j0 + (k' + 1) = (j0 + k') + 1 by omega] at hc ⊢
    rw [chainLenEnd_succ_succ, if_pos hc,
      if_neg (by omega : ¬ (i0 + k' + 1 = alo))]
    omega

theorem chain_block_start (a b : List Char) (alo ahi blo bhi i j : Nat)
    (hpop : ∀ c, isPopular b c = false)
    (hahi : ahi ≤ a.length)
    (hi : alo ≤ i) (hia : i < ahi) (hjb : j < bhi) (k : Nat) (hk : 0 < k)
    (hkc : k ≤ chainLenEnd a b alo blo bhi i j) :
    alo ≤ i + 1 - k ∧ blo ≤ j + 1 - k ∧
      k ≤ blockLenAt a b ahi bhi (i + 1 - k) (j + 1 - k) := by
  obtain ⟨hr1, hr2, hr3⟩ :=
    chainLenEnd_chars a b alo blo bhi i j (k - 1) hi (by omega)
  have hmem := (mem_validJs hpop (j - (k - 1))).mp (contains_mem hr3)
  refine ⟨by omega, by omega, ?_⟩
  unfold blockLenAt
  have hrun : k ≤ runLen (a.drop (i + 1 - k)) (b.drop (j + 1 - k)) := by
    apply runLen_ge
    intro r hr
    obtain ⟨g1, g2, g3⟩ :=
      chainLenEnd_chars a b alo blo bhi i j (k - 1 - r) hi (by omega)
    have gm := (mem_validJs hpop (j - (k - 1 - r))).mp (contains_mem g3)
    have e1 : i + 1 - k + r = i - (k - 1 - r) := by omega
    have e2 : j + 1 - k + r = j - (k - 1 - r) := by omega
    rw [List.length_drop, List.length_drop, getC_drop, getC_drop, e1, e2]
    refine ⟨?_, ?_, gm.2.2.2.symm⟩
    · have hia2 : i < a.length := lt_of_lt_of_le hia hahi
      omega
    · have := gm.2.2.1
      omega
  have hcap1 : k ≤ ahi - (i + 1 - k) := by omega
  have hcap2 : k ≤ bhi - (j + 1 - k) := by omega
  omega

theorem block_chain_end (a b : List Char) (alo ahi blo bhi i0 j0 : Nat)
    (hpop : ∀ c, isPopular b c = false)
    (hi0 : alo ≤ i0) (hj0 : blo ≤ j0) (k : Nat) (hk : 0 < k)
    (hkb : k ≤ blockLenAt a b ahi bhi i0 j0) :
    k ≤ chainLenEnd a b alo blo bhi (i0 + k - 1) (j0 + k - 1) ∧
      i0 + k ≤ ahi ∧ j0 + k ≤ bhi ∧
      (validJs a b blo bhi (i0 + k - 1)).contains (j0 + k - 1) = true := by
  unfold blockLenAt at hkb
  have hcap1 : i0 + k ≤ ahi := by omega
  have hcap2 : j0 + k ≤ bhi := by omega
  have hrun : k ≤ runLen (a.drop i0) (b.drop j0) := by omega
  have hcont : ∀ r, r ≤ k - 1 →
      (validJs a b blo bhi (i0 + r)).contains (j0 + r) = true := by
    intro r hr
    obtain ⟨g1, g2, g3⟩ := runLen_chars (a.drop i0) (b.drop j0) r (by omega)
    rw [List.length_drop] at g1 g2
    rw [getC_drop, getC_drop] at g3
    apply mem_contains
    rw [mem_validJs hpop]
    exact ⟨by omega, by omega, by omega, g3.symm⟩
  have hchain := chainLenEnd_of_run a b alo blo bhi i0 j0 hi0 (k - 1)
    (fun r hr => hcont r hr)
  rw [show i0 + (k - 1) = i0 + k - 1 by omega,
    show j0 + (k - 1) = j0 + k - 1 by omega] at hchain
  refine ⟨by omega, hcap1, hcap2, ?_⟩
  have hlast := hcont (k - 1) le_rfl
  rw [show i0 + (k - 1) = i0 + k - 1 by omega,
    show j0 + (k - 1) = j0 + k - 1 by omega] at hlast
  exact hlast

theorem maxes_eq (a b : List Char) (alo ahi blo bhi : Nat)
    (hpop : ∀ c, isPopular b c = false)
    (hahi : ahi ≤ a.length) (hbhi : bhi ≤ b.length)
    (halo : alo ≤ ahi) (hblo : blo ≤ bhi) :
    listMaxF (fun p => chainLenEnd a b alo blo bhi p.1 p.2)
        (pairList (validJs a b blo bhi) alo (ahi - alo)) =
      listMaxF (fun p => blockLenAt a b ahi bhi p.1 p.2)
        (pairList (fun _ => List.range' blo (bhi - blo)) alo (ahi - alo)) := by
  have hub : ∀ p ∈ pairList (validJs a b blo bhi) alo (ahi - alo),
      chainLenEnd a b alo blo bhi p.1 p.2 ≤
        listMaxF (fun p => blockLenAt a b ahi bhi p.1 p.2)
          (pairList (fun _ => List.range' blo (bhi - blo)) alo (ahi - alo)) := by
    intro p hp
    rcases Nat.eq_zero_or_pos (chainLenEnd a b alo blo bhi p.1 p.2) with h0 | hpos
    · omega
    · obtain ⟨hp1, hp2, hp3⟩ := pairList_mem.mp hp
      have hia : p.1 < ahi := by omega
      have hjv := (mem_validJs hpop p.2).mp hp3
      obtain ⟨hs1, hs2, hs3⟩ := chain_block_start a b alo ahi blo bhi p.1 p.2
        hpop hahi hp1 hia hjv.2.1 _ hpos le_rfl
      have hmem : (p.1 + 1 - chainLenEnd a b alo blo bhi p.1 p.2,
          p.2 + 1 - chainLenEnd a b alo blo bhi p.1 p.2) ∈
          pairList (fun _ => List.range' blo (bhi - blo)) alo (ahi - alo) := by
        rw [pairList_mem]
        refine ⟨hs1, by omega, ?_⟩
        rw [mem_range1]
        have := hjv.2.1
        omega
      have hle : blockLenAt a b ahi bhi
          (p.1 + 1 - chainLenEnd a b alo blo bhi p.1 p.2)
          (p.2 + 1 - chainLenEnd a b alo blo bhi p.1 p.2) ≤
          listMaxF (fun p => blockLenAt a b ahi bhi p.1 p.2)
            (pairList (fun _ => List.range' blo (bhi - blo)) alo (ahi - alo)) :=
        @listMaxF_le (fun p => blockLenAt a b ahi bhi p.1 p.2) _ _ hmem
      omega
  have hlb : ∀ q ∈ pairList (fun _ => List.range' blo (bhi - blo)) alo (ahi - alo),
      blockLenAt a b ahi bhi q.1 q.2 ≤
        listMaxF (fun p => chainLenEnd a b alo blo bhi p.1 p.2)
          (pairList (validJs a b blo bhi) alo (ahi - alo)) := by
    intro q hq
    rcases Nat.eq_zero_or_pos (blockLenAt a b ahi bhi q.1 q.2) with h0 | hpos
    · omega
    · obtain ⟨hq1, hq2, hq3⟩ := pairList_mem.mp hq
      rw [mem_range1] at hq3
      obtain ⟨hc1, hc2, hc3, hc4⟩ := block_chain_end a b alo ahi blo bhi q.1 q.2
        hpop hq1 hq3.1 _ hpos le_rfl
      have hmem : (q.1 + blockLenAt a b ahi bhi q.1 q.2 - 1,
          q.2 + blockLenAt a b ahi bhi q.1 q.2 - 1) ∈
          pairList (validJs a b blo bhi) alo (ahi - alo) := by
        rw [pairList_mem]
        exact ⟨by omega, by omega, contains_mem hc4⟩
      have hle : chainLenEnd a b alo blo bhi
          (q.1 + blockLenAt a b ahi bhi q.1 q.2 - 1)
          (q.2 + blockLenAt a b ahi bhi q.1 q.2 - 1) ≤
          listMaxF (fun p => chainLenEnd a b alo blo bhi p.1 p.2)
            (pairList (validJs a b blo bhi) alo (ahi - alo)) :=
        @listMaxF_le (fun p => chainLenEnd a b alo blo bhi p.1 p.2) _ _ hmem
      omega
  apply Nat.le_antisymm
  · rcases @listMaxF_attained (fun p => chainLenEnd a b alo blo bhi p.1 p.2)
        (pairList (validJs a b blo bhi) alo (ahi - alo)) with h0 | ⟨p, hp, hfp⟩
    · omega
    · have := hub p hp
      omega
  · rcases @listMaxF_attained (fun p => blockLenAt a b ahi bhi p.1 p.2)
        (pairList (fun _ => List.range' blo (bhi - blo)) alo (ahi - alo))
        with h0 | ⟨q, hq, hfq⟩
    · omega
    · have := hlb q hq
      omega

theorem extendBack_noop (a b : List Char) (alo blo : Nat) (bi bj k : Nat)
    (h : ¬ (alo < bi ∧ blo < bj ∧ getC a (bi - 1) = getC b (bj - 1))) :
    ∀ fuel, extendBack a b alo blo fuel ((bi, bj), k) = ((bi, bj), k) := by
  intro fuel
  cases fuel with
  | zero => rfl
  | succ f => rw [extendBack, if_neg h]

theorem extendFwd_noop (a b : List Char) (ahi bhi : Nat) (bi bj k : Nat)
    (h : ¬ (bi + k < ahi ∧ bj + k < bhi ∧ getC a (bi + k) = getC b (bj + k))) :
    ∀ fuel, extendFwd a b ahi bhi fuel ((bi, bj), k) = ((bi, bj), k) := by
  intro fuel
  cases fuel with
  | zero => rfl
  | succ f => rw [extendFwd, if_neg h]

set_option maxHeartbeats 1600000 in
theorem findLongestMatch_eq_spec (a b : List Char) (alo ahi blo bhi : Nat)
    (hpop : ∀ c, isPopular b c = false)
    (hahi : ahi ≤ a.length) (hbhi : bhi ≤ b.length)
    (halo : alo ≤ ahi) (hblo : blo ≤ bhi) :
    findLongestMatch a b alo ahi blo bhi = specLongestBlock a b alo ahi blo bhi := by
  have hdp : dpLoop a b blo bhi alo (ahi - alo) (fun _ => 0) ((alo, blo), 0) =
      (pairList (validJs a b blo bhi) alo (ahi - alo)).foldl
        (pickStep (fun p => chainLenEnd a b alo blo bhi p.1 p.2)
          (fun p k => ((p.1 + 1 - k, p.2 + 1 - k), k))) ((alo, blo), 0) :=
    dpLoop_eq_fold a b alo blo bhi (ahi - alo) alo (fun _ => 0) ((alo, blo), 0)
      le_rfl (fun j => by rw [if_pos rfl])
  have hM := maxes_eq a b alo ahi blo bhi hpop hahi hbhi halo hblo
  have hpick_dp := pickFold_spec (fun p => chainLenEnd a b alo blo bhi p.1 p.2)
    (fun p k => ((p.1 + 1 - k, p.2 + 1 - k), k)) (fun p k => rfl)
    (pairList (validJs a b blo bhi) alo (ahi - alo)) ((alo, blo), 0)
  have hpick_sp := pickFold_spec (fun p => blockLenAt a b ahi bhi p.1 p.2)
    (fun p k => (p, k)) (fun p k => rfl)
    (pairList (fun _ => List.range' blo (bhi - blo)) alo (ahi - alo)) ((alo, blo), 0)
  obtain ⟨M, hMdp⟩ : ∃ m, listMaxF (fun p => chainLenEnd a b alo blo bhi p.1 p.2)
      (pairList (validJs a b blo bhi) alo (ahi - alo)) = m := ⟨_, rfl⟩
  rw [hMdp] at hpick_dp hM
  rw [← hM] at hpick_sp
  rcases Nat.eq_zero_or_pos M with hM0 | hMpos
  · have hfold_dp := hpick_dp.1 (le_of_eq hM0)
    have hfold_sp := hpick_sp.1 (le_of_eq hM0)
    have hb : ∀ fuel, extendBack a b alo blo fuel ((alo, blo), 0) = ((alo, blo), 0) := by
      apply extendBack_noop
      rintro ⟨g, -, -⟩
      omega
    rw [specLongestBlock, hfold_sp]
    simp only [findLongestMatch]
    rw [hdp, hfold_dp, hb]
    show extendFwd a b ahi bhi (ahi - (alo + 0)) ((alo, blo), 0) = ((alo, blo), 0)
    apply extendFwd_noop
    rintro ⟨g1, g2, g3⟩
    have hjv : blo ∈ validJs a b blo bhi alo := by
      rw [mem_validJs hpop]
      exact ⟨le_rfl, by omega, by omega, by simpa using g3.symm⟩
    have hmem : (alo, blo) ∈ pairList (validJs a b blo bhi) alo (ahi - alo) := by
      rw [pairList_mem]
      exact ⟨le_rfl, by omega, hjv⟩
    have hfpos := @chainLenEnd_pos a b alo blo bhi alo blo (mem_contains hjv)
    have hle : chainLenEnd a b alo blo bhi alo blo ≤
        listMaxF (fun p => chainLenEnd a b alo blo bhi p.1 p.2)
          (pairList (validJs a b blo bhi) alo (ahi - alo)) :=
      @listMaxF_le (fun p => chainLenEnd a b alo blo bhi p.1 p.2)
        (pairList (validJs a b blo bhi) alo (ahi - alo)) (alo, blo) hmem
    rw [hMdp] at hle
    omega
  · obtain ⟨qdp, hfind_dp, hfold_dp⟩ := hpick_dp.2 hMpos
    obtain ⟨qsp, hfind_sp, hfold_sp⟩ := hpick_sp.2 hMpos
    have hq_dp_mem := List.mem_of_find?_eq_some hfind_dp
    have hq_sp_mem := List.mem_of_find?_eq_some hfind_sp
    have hq_dp_val : chainLenEnd a b alo blo bhi qdp.1 qdp.2 = M := by
      have h := List.find?_some hfind_dp
      simpa using h
    have hq_sp_val : blockLenAt a b ahi bhi qsp.1 qsp.2 = M := by
      have h := List.find?_some hfind_sp
      simpa using h
    obtain ⟨hd1, hd2, hd3⟩ := pairList_mem.mp hq_dp_mem
    have hd_ia : qdp.1 < ahi := by omega
    have hdj := (mem_validJs hpop qdp.2).mp hd3
    obtain ⟨hb1, hb2, hb3⟩ := chainLenEnd_chars a b alo blo bhi qdp.1 qdp.2 (M - 1)
      hd1 (by omega)
    obtain ⟨hs1, hs2, hs3⟩ := chain_block_start a b alo ahi blo bhi qdp.1 qdp.2
      hpop hahi hd1 hd_ia hdj.2.1 M hMpos (le_of_eq hq_dp_val.symm)
    have hs_mem : (qdp.1 + 1 - M, qdp.2 + 1 - M) ∈
        pairList (fun _ => List.range' blo (bhi - blo)) alo (ahi - alo) := by
      rw [pairList_mem]
      refine ⟨hs1, by omega, ?_⟩
      rw [mem_range1]
      have := hdj.2.1
      omega
    have hs_le : blockLenAt a b ahi bhi (qdp.1 + 1 - M) (qdp.2 + 1 - M) ≤ M := by
      have h : blockLenAt a b ahi bhi (qdp.1 + 1 - M) (qdp.2 + 1 - M) ≤
          listMaxF (fun p => blockLenAt a b ahi bhi p.1 p.2)
            (pairList (fun _ => List.range' blo (bhi - blo)) alo (ahi - alo)) :=
        @listMaxF_le (fun p => blockLenAt a b ahi bhi p.1 p.2)
          (pairList (fun _ => List.range' blo (bhi - blo)) alo (ahi - alo))
          ((qdp.1 + 1 - M, qdp.2 + 1 - M)) hs_mem
      rw [← hM] at h
      exact h
    have hs_val : blockLenAt a b ahi bhi (qdp.1 + 1 - M) (qdp.2 + 1 - M) = M :=
      Nat.le_antisymm hs_le hs3
    have hsorted_sp : List.Pairwise lexLt
        (pairList (fun _ => List.range' blo (bhi - blo)) alo (ahi - alo)) :=
      pairList_sorted (fun i => range1_pairwise (bhi - blo) blo) (ahi - alo) alo
    have hmin_sp := find?_min hsorted_sp hfind_sp (qdp.1 + 1 - M, qdp.2 + 1 - M)
      hs_mem (by simp [hs_val])
    obtain ⟨hq1, hq2, hq3⟩ := pairList_mem.mp hq_sp_mem
    rw [mem_range1] at hq3
    obtain ⟨he1, he2, he3, he4⟩ := block_chain_end a b alo ahi blo bhi qsp.1 qsp.2
      hpop hq1 hq3.1 M hMpos (le_of_eq hq_sp_val.symm)
    have he_mem : (qsp.1 + M - 1, qsp.2 + M - 1) ∈
        pairList (validJs a b blo bhi) alo (ahi - alo) := by
      rw [pairList_mem]
      exact ⟨by omega, by omega, contains_mem he4⟩
    have he_le : chainLenEnd a b alo blo bhi (qsp.1 + M - 1) (qsp.2 + M - 1) ≤ M := by
      have h : chainLenEnd a b alo blo bhi (qsp.1 + M - 1) (qsp.2 + M - 1) ≤
          listMaxF (fun p => chainLenEnd a b alo blo bhi p.1 p.2)
            (pairList (validJs a b blo bhi) alo (ahi - alo)) :=
        @listMaxF_le (fun p => chainLenEnd a b alo blo bhi p.1 p.2)
          (pairList (validJs a b blo bhi) alo (ahi - alo))
          ((qsp.1 + M - 1, qsp.2 + M - 1)) he_mem
      rw [hMdp] at h
      exact h
    have he_val : chainLenEnd a b alo blo bhi (qsp.1 + M - 1) (qsp.2 + M - 1) = M :=
      Nat.le_antisymm he_le he1
    have hsorted_dp : List.Pairwise lexLt
        (pairList (validJs a b blo bhi) alo (ahi - alo)) :=
      pairList_sorted (fun i => validJs_sorted a b blo bhi i) (ahi - alo) alo
    have hmin_dp := find?_min hsorted_dp hfind_dp (qsp.1 + M - 1, qsp.2 + M - 1)
      he_mem (by simp [he_val])
    have hA : (qsp.1 = qdp.1 + 1 - M ∧ qsp.2 = qdp.2 + 1 - M) ∨
        (qsp.1 < qdp.1 + 1 - M ∨ (qsp.1 = qdp.1 + 1 - M ∧ qsp.2 < qdp.2 + 1 - M)) := by
      rcases hmin_sp with h | h
      · left
        rw [h]
        exact ⟨rfl, rfl⟩
      · right
        simpa [lexLt] using h
    have hB : (qdp.1 = qsp.1 + M - 1 ∧ qdp.2 = qsp.2 + M - 1) ∨
        (qdp.1 < qsp.1 + M - 1 ∨ (qdp.1 = qsp.1 + M - 1 ∧ qdp.2 < qsp.2 + M - 1)) := by
      rcases hmin_dp with h | h
      · left
        rw [h]
        exact ⟨rfl, rfl⟩
      · right
        simpa [lexLt] using h
    have hq_comp : qsp.1 = qdp.1 + 1 - M ∧ qsp.2 = qdp.2 + 1 - M := by omega
    have hq_eq : qsp = (qdp.1 + 1 - M, qdp.2 + 1 - M) := by
      calc qsp = (qsp.1, qsp.2) := rfl
      _ = (qdp.1 + 1 - M, qdp.2 + 1 - M) := by rw [hq_comp.1, hq_comp.2]
    have hback : ∀ fuel, extendBack a b alo blo fuel
        ((qdp.1 + 1 - M, qdp.2 + 1 - M), M) = ((qdp.1 + 1 - M, qdp.2 + 1 - M), M) := by
      apply extendBack_noop
      rintro ⟨g1, g2, g3⟩
      clear hdp hpick_dp hpick_sp hfold_dp hfold_sp hfind_dp hfind_sp hmin_dp hmin_sp hA hB hq_comp hq_eq
      have hrun_s : M ≤ runLen (a.drop (qdp.1 + 1 - M)) (b.drop (qdp.2 + 1 - M)) := by
        have h := hs_val
        unfold blockLenAt at h
        omega
      have hrun_s1 : M + 1 ≤
          runLen (a.drop (qdp.1 + 1 - M - 1)) (b.drop (qdp.2 + 1 - M - 1)) := by
        apply runLen_ge
        intro r hr
        rw [List.length_drop, List.length_drop, getC_drop, getC_drop]
        cases r with
        | zero =>
          refine ⟨?_, ?_, ?_⟩
          · have := hdj.2.1
            omega
          · have := hdj.2.1
            omega
          · simpa using g3
        | succ r' =>
          obtain ⟨w1, w2, w3⟩ := runLen_chars (a.drop (qdp.1 + 1 - M))
            (b.drop (qdp.2 + 1 - M)) r' (by omega)
          rw [List.length_drop] at w1 w2
          rw [getC_drop, getC_drop] at w3
          refine ⟨by omega, by omega, ?_⟩
          rw [show qdp.1 + 1 - M - 1 + (r' + 1) = qdp.1 + 1 - M + r' by omega,
            show qdp.2 + 1 - M - 1 + (r' + 1) = qdp.2 + 1 - M + r' by omega]
          exact w3
      have hblock_s1 : M + 1 ≤
          blockLenAt a b ahi bhi (qdp.1 + 1 - M - 1) (qdp.2 + 1 - M - 1) := by
        unfold blockLenAt
        have hcap := hs_val
        unfold blockLenAt at hcap
        have := hdj.2.1
        omega
      have hmem_s1 : (qdp.1 + 1 - M - 1, qdp.2 + 1 - M - 1) ∈
          pairList (fun _ => List.range' blo (bhi - blo)) alo (ahi - alo) := by
        rw [pairList_mem]
        refine ⟨by omega, by omega, ?_⟩
        rw [mem_range1]
        have := hdj.2.1
        omega
      have hcon : blockLenAt a b ahi bhi (qdp.1 + 1 - M - 1) (qdp.2 + 1 - M - 1) ≤ M := by
        have h : blockLenAt a b ahi bhi (qdp.1 + 1 - M - 1) (qdp.2 + 1 - M - 1) ≤
            listMaxF (fun p => blockLenAt a b ahi bhi p.1 p.2)
              (pairList (fun _ => List.range' blo (bhi - blo)) alo (ahi - alo)) :=
          @listMaxF_le (fun p => blockLenAt a b ahi bhi p.1 p.2)
            (pairList (fun _ => List.range' blo (bhi - blo)) alo (ahi - alo))
            ((qdp.1 + 1 - M - 1, qdp.2 + 1 - M - 1)) hmem_s1
        rw [← hM] at h
        exact h
      omega
    have hfwd : ∀ fuel, extendFwd a b ahi bhi fuel
        ((qdp.1 + 1 - M, qdp.2 + 1 - M), M) = ((qdp.1 + 1 - M, qdp.2 + 1 - M), M) := by
      apply extendFwd_noop
      rintro ⟨g1, g2, g3⟩
      clear hdp hpick_dp hpick_sp hfold_dp hfold_sp hfind_dp hfind_sp hmin_dp hmin_sp hA hB hq_comp hq_eq hback
      have hrun_s : M ≤ runLen (a.drop (qdp.1 + 1 - M)) (b.drop (qdp.2 + 1 - M)) := by
        have h := hs_val
        unfold blockLenAt at h
        omega
      have hrun_more : M + 1 ≤
          runLen (a.drop (qdp.1 + 1 - M)) (b.drop (qdp.2 + 1 - M)) := by
        apply runLen_ge
        intro r hr
        by_cases hrM : r < M
        · exact runLen_chars (a.drop (qdp.1 + 1 - M)) (b.drop (qdp.2 + 1 - M)) r
            (by omega)
        · have hrM2 : r = M := by omega
          subst hrM2
          rw [List.length_drop, List.length_drop, getC_drop, getC_drop]
          exact ⟨by omega, by omega, g3⟩
      have hcapcon := hs_val
      unfold blockLenAt at hcapcon
      omega
    rw [specLongestBlock, hfold_sp]
    simp only [findLongestMatch]
    rw [hdp, hfold_dp]
    show extendFwd a b ahi bhi
        (ahi - ((extendBack a b alo blo (qdp.1 + 1 - M - alo)
            ((qdp.1 + 1 - M, qdp.2 + 1 - M), M)).1.1 +
          (extendBack a b alo blo (qdp.1 + 1 - M - alo)
            ((qdp.1 + 1 - M, qdp.2 + 1 - M), M)).2))
        (extendBack a b alo blo (qdp.1 + 1 - M - alo)
          ((qdp.1 + 1 - M, qdp.2 + 1 - M), M)) = (qsp, M)
    rw [hback]
    show extendFwd a b ahi bhi (ahi - (qdp.1 + 1 - M + M))
        ((qdp.1 + 1 - M, qdp.2 + 1 - M), M) = (qsp, M)
    rw [hfwd, hq_eq]

theorem smMatchesFuel_eq_spec (a b : List Char)
    (hpop : ∀ c, isPopular b c = false) :
    ∀ fuel alo ahi blo bhi, ahi ≤ a.length → bhi ≤ b.length →
      alo ≤ ahi → blo ≤ bhi →
      smMatchesFuel a b fuel alo ahi blo bhi = specMatchesFuel a b fuel alo ahi blo bhi := by
  intro fuel
  induction fuel with
  | zero => intro alo ahi blo bhi _ _ _ _; rfl
  | succ f ih =>
    intro alo ahi blo bhi h1 h2 h3 h4
    have hm : findLongestMatch a b alo ahi blo bhi = specLongestBlock a b alo ahi blo bhi :=
      findLongestMatch_eq_spec a b alo ahi blo bhi hpop h1 h2 h3 h4
    obtain ⟨v1, v2, v3, v4⟩ := findLongestMatch_valid h3 h4
    simp only [smMatchesFuel, specMatchesFuel]
    rw [← hm]
    by_cases hz : (findLongestMatch a b alo ahi blo bhi).2 = 0
    · rw [if_pos hz, if_pos hz]
    · rw [if_neg hz, if_neg hz,
        ih alo (findLongestMatch a b alo ahi blo bhi).1.1 blo
          (findLongestMatch a b alo ahi blo bhi).1.2 (by omega) (by omega) v1 v2,
        ih ((findLongestMatch a b alo ahi blo bhi).1.1 +
            (findLongestMatch a b alo ahi blo bhi).2) ahi
          ((findLongestMatch a b alo ahi blo bhi).1.2 +
            (findLongestMatch a b alo ahi blo bhi).2) bhi
          h1 h2 v3 v4]

theorem smRatio_eq_specRatio (a b : List Char) (hb : b.length < 200) :
    smRatio a b = specRatio a b := by
  have hpop : ∀ c, isPopular b c = false := by
    intro c
    unfold isPopular
    have h : decide (200 ≤ b.length) = false := by
      rw [decide_eq_false_iff_not]
      omega
    rw [h, Bool.false_and]
  unfold smRatio specRatio smMatches specMatches
  rw [smMatchesFuel_eq_spec a b hpop (a.length + b.length + 1) 0 a.length 0 b.length
    le_rfl le_rfl (Nat.zero_le _) (Nat.zero_le _)]

theorem specMatchesFuel_succ (a b : List Char) (fuel alo ahi blo bhi : Nat) :
    specMatchesFuel a b (fuel + 1) alo ahi blo bhi =
      (if (specLongestBlock a b alo ahi blo bhi).2 = 0 then 0
       else specMatchesFuel a b fuel alo (specLongestBlock a b alo ahi blo bhi).1.1
              blo (specLongestBlock a b alo ahi blo bhi).1.2 +
            (specLongestBlock a b alo ahi blo bhi).2 +
            specMatchesFuel a b fuel
              ((specLongestBlock a b alo ahi blo bhi).1.1 +
                (specLongestBlock a b alo ahi blo bhi).2) ahi
              ((specLongestBlock a b alo ahi blo bhi).1.2 +
                (specLongestBlock a b alo ahi blo bhi).2) bhi) := rfl

set_option maxRecDepth 4000 in
set_option maxHeartbeats 16000000 in
/-- C3 counterexample: at a prediction-side text of 200 characters the
`SequenceMatcher` autojunk heuristic purges the popular character `a` from
`b2j`, so the implemented ratio misses the classic alignment's `aa` block:
for gold `"aab"` and the prediction `"b"` followed by 199 `"a"`s, the
similarity computed before bonuses is `2/203` while the classic recursive
longest-matching-block ratio of the spec is `4/203`. Both texts are fixed
points of the normalizer, so they do arise as lowercased normalized texts of
non-empty extracted inputs. -/
theorem c3_counterexample :
    normalizeText "aab".toList = "aab".toList ∧
    normalizeText longPredText = longPredText ∧
    simRaw "aab".toList longPredText ≠
      specRatio (lowerTxt "aab".toList) (lowerTxt longPredText) := by
  refine ⟨by decide, by decide, ?_⟩
  have hlg : lowerTxt "aab".toList = "aab".toList := by decide
  have hlp : lowerTxt longPredText = longPredText := by decide
  have hsm : smMatches "aab".toList longPredText = 1 := by decide
  have hrow0 : ((List.range' 0 200).map (fun j => ((0 : Nat), j))).foldl
      (pickStep (fun p => blockLenAt "aab".toList longPredText 3 200 p.1 p.2)
        (fun p k => (p, k))) ((0, 0), 0) = ((0, 1), 2) := by decide
  have hrow1 : ((List.range' 0 200).map (fun j => ((1 : Nat), j))).foldl
      (pickStep (fun p => blockLenAt "aab".toList longPredText 3 200 p.1 p.2)
        (fun p k => (p, k))) ((0, 1), 2) = ((0, 1), 2) := by decide
  have hrow2 : ((List.range' 0 200).map (fun j => ((2 : Nat), j))).foldl
      (pickStep (fun p => blockLenAt "aab".toList longPredText 3 200 p.1 p.2)
        (fun p k => (p, k))) ((0, 1), 2) = ((0, 1), 2) := by decide
  have hsplit : pairList (fun _ => List.range' 0 200) 0 3 =
      (List.range' 0 200).map (fun j => ((0 : Nat), j)) ++
        ((List.range' 0 200).map (fun j => ((1 : Nat), j)) ++
          ((List.range' 0 200).map (fun j => ((2 : Nat), j)) ++ [])) := by decide
  have hblock : specLongestBlock "aab".toList longPredText 0 3 0 200 = ((0, 1), 2) := by
    unfold specLongestBlock
    rw [show (200 : Nat) - 0 = 200 from rfl, show (3 : Nat) - 0 = 3 from rfl]
    rw [hsplit, List.foldl_append, hrow0, List.foldl_append, hrow1,
      List.foldl_append, hrow2, List.foldl_nil]
  have hsp : specMatches "aab".toList longPredText = 2 := by
    show specMatchesFuel "aab".toList longPredText (203 + 1) 0 3 0 200 = 2
    rw [specMatchesFuel_succ, hblock]
    show (if (2 : Nat) = 0 then 0
      else specMatchesFuel "aab".toList longPredText 203 0 0 0 1 + 2 +
        specMatchesFuel "aab".toList longPredText 203 (0 + 2) 3 (1 + 2) 200) = 2
    rw [if_neg (by decide)]
    have hleft : specMatchesFuel "aab".toList longPredText 203 0 0 0 1 = 0 := by decide
    have hright : specMatchesFuel "aab".toList longPredText 203 (0 + 2) 3 (1 + 2) 200 = 0 := by
      decide
    rw [hleft, hright]
  unfold simRaw
  rw [hlg, hlp]
  unfold smRatio specRatio
  rw [hsm, hsp]
  have hla : ("aab".toList).length = 3 := by decide
  have hlb : longPredText.length = 200 := by decide
  rw [hla, hlb]
  norm_num

/-- C3 (amended): whenever the lowercased normalized prediction-side text is
shorter than 200 characters (so the autojunk heuristic stays inactive), the
similarity computed before bonuses equals the spec's ratio `2 x M / T`, with
`M` the total matched length of the classic recursive longest-matching-block
alignment of the two lowercased normalized texts and `T` the sum of their
lengths. At 200 characters or more the equality can fail
(`c3_counterexample`). -/
theorem c3_similarity_classic_ratio (gt pt : List Char)
    (h : (lowerTxt (normalizeText pt)).length < 200) :
    simRaw (normalizeText gt) (normalizeText pt) =
      specRatio (lowerTxt (normalizeText gt)) (lowerTxt (normalizeText pt)) := by
  unfold simRaw
  exact smRatio_eq_specRatio _ _ h

/-- C3 witness: the amended theorem applied at gold `"Paris"`,
prediction `"in Paris"`. -/
theorem c3_witness :
    (lowerTxt (normalizeText "in Paris".toList)).length < 200 ∧
      simRaw (normalizeText "Paris".toList) (normalizeText "in Paris".toList) =
        specRatio (lowerTxt (normalizeText "Paris".toList))
          (lowerTxt (normalizeText "in Paris".toList)) :=
  ⟨by decide, c3_similarity_classic_ratio "Paris".toList "in Paris".toList (by decide)⟩
